import Mathlib

/-!
Verification development for the `mv` multi-version key/value store.

The repository contains two revisions of the storage engine:

* `src/lib.rs` — the staging-buffer revision: `Storage` owns a persistent
  ordered base map (`blocks`, a `BptreeMap`) and a versioned scalar slot
  (`latest_block`, an `EbrCell<BlockInner>`) holding the diff of the most
  recently committed block (`removed_keys` tombstone set and
  `new_or_updated_keys` override map).  The staging buffer is merged into
  the base lazily at the next `Storage::block` call.
* `src/storage.rs` / `src/cell.rs` — the rollback-log revision: `Storage`
  owns the base map plus a rollback log `revert : BTreeMap<K, Option<V>>`
  capturing, per key, the value it had before the currently open block;
  `block_and_revert` applies the log to undo the latest committed block.
* `src/serde.rs` — serialization visitors for the rollback-log revision.

The external ordered-map collaborator (`concread::bptree::BptreeMap`,
`std::collections::BTreeMap`) is embedded as a strictly-sorted association
list; `BTreeSet` as a strictly-sorted key list.  Machine state is passed
explicitly; the epoch-based scalar slot is modelled, where snapshot
persistence is at stake, as a grow-only list of published generations.
-/

namespace Mv

variable {K : Type} {V : Type} {β : Type} [LinearOrder K]

/-- Model of ordered-map lookup (`BTreeMap::get` / `BptreeMap` read `get`):
first entry of the association list whose key equals `k`. -/
def bGet (k : K) : List (K × β) → Option β
  | [] => none
  | e :: rest => if k = e.1 then some e.2 else bGet k rest

/-- Model of ordered-map `insert`: place the entry at its sorted position,
replacing an existing entry with the same key. -/
def bInsert (k : K) (v : β) : List (K × β) → List (K × β)
  | [] => [(k, v)]
  | e :: rest =>
    if k < e.1 then (k, v) :: e :: rest
    else if k = e.1 then (k, v) :: rest
    else e :: bInsert k v rest

/-- Model of ordered-map `remove`: drop the first entry with key `k`. -/
def bErase (k : K) : List (K × β) → List (K × β)
  | [] => []
  | e :: rest => if k = e.1 then rest else e :: bErase k rest

/-- Model of `BTreeMap::entry(k).or_insert(v)`: insert `k ↦ v` only when `k`
is absent. -/
def orInsert (k : K) (v : β) (l : List (K × β)) : List (K × β) :=
  match bGet k l with
  | some _ => l
  | none => bInsert k v l

/-- Model of `map.extend(entries)`: insert every entry in iteration order. -/
def bExtend (es : List (K × β)) (m : List (K × β)) : List (K × β) :=
  es.foldl (fun m e => bInsert e.1 e.2 m) m

/-- Remove every key of `ks` from the map, in iteration order. -/
def bEraseAll (ks : List K) (m : List (K × β)) : List (K × β) :=
  ks.foldl (fun m k => bErase k m) m

/-- Model of ordered-set membership (`BTreeSet::contains`). -/
def sMem (k : K) : List K → Bool
  | [] => false
  | k' :: rest => if k = k' then true else sMem k rest

/-- Model of ordered-set `insert`. -/
def sInsert (k : K) : List K → List K
  | [] => [k]
  | k' :: rest =>
    if k < k' then k :: k' :: rest
    else if k = k' then k' :: rest
    else k' :: sInsert k rest

/-- Model of ordered-set `remove`. -/
def sErase (k : K) : List K → List K
  | [] => []
  | k' :: rest => if k = k' then rest else k' :: sErase k rest

/-- Model of `set.extend(keys)`. -/
def sExtend (ks : List K) (s : List K) : List K :=
  ks.foldl (fun s k => sInsert k s) s

/-- Well-formedness of the association-list embedding of an ordered map:
keys strictly ascend. -/
def bSorted (l : List (K × β)) : Prop :=
  l.Pairwise (fun a b => a.1 < b.1)

/-- Well-formedness of the key-list embedding of an ordered set. -/
def sSorted (s : List K) : Prop :=
  s.Pairwise (· < ·)

/-- Staging buffer of the `lib.rs` revision (`block::BlockInner`): tombstone
set `removed_keys` plus override map `new_or_updated_keys`. -/
structure BlockInner (K V : Type) where
  removed_keys : List K
  new_or_updated_keys : List (K × V)

/-- The empty staging buffer (`BlockInner::new`). -/
def BlockInner.empty : BlockInner K V :=
  ⟨[], []⟩

/-- Well-formed staging buffer: both components sorted (they embed a
`BTreeSet` and a `BTreeMap`). -/
def InnerWF (inner : BlockInner K V) : Prop :=
  sSorted inner.removed_keys ∧ bSorted inner.new_or_updated_keys

/-- Lookup through a staging buffer over a base map.  Mirrors `View::get`,
`Block::get` and the staging layer of `Transaction::get` in `lib.rs`:
consult the overrides, then the tombstones, then the base. -/
def viewGet (inner : BlockInner K V) (blocks : List (K × V)) (k : K) : Option V :=
  match bGet k inner.new_or_updated_keys with
  | none => if sMem k inner.removed_keys then none else bGet k blocks
  | some v => some v

/-- `Block::insert` / `Transaction::insert` of `lib.rs`: drop the tombstone
for `key`, then record the override. -/
def BlockInner.insert (inner : BlockInner K V) (key : K) (value : V) : BlockInner K V :=
  ⟨sErase key inner.removed_keys, bInsert key value inner.new_or_updated_keys⟩

/-- `Block::remove` / `Transaction::remove` of `lib.rs`: drop the override
for `key`, then record the tombstone. -/
def BlockInner.remove (inner : BlockInner K V) (key : K) : BlockInner K V :=
  ⟨sInsert key inner.removed_keys, bErase key inner.new_or_updated_keys⟩

/-- The non-rollback branch of `Storage::block` in `lib.rs`: remove every
tombstoned key from the base, then extend the base with the overrides. -/
def applyStaging (inner : BlockInner K V) (blocks : List (K × V)) : List (K × V) :=
  bExtend inner.new_or_updated_keys (bEraseAll inner.removed_keys blocks)

/-- `Transaction::apply` of `lib.rs`: retain block overrides whose key the
transaction did not tombstone, extend the block overrides with the
transaction overrides, extend the block tombstones with the transaction
tombstones. -/
def txnApply (block txn : BlockInner K V) : BlockInner K V :=
  ⟨sExtend txn.removed_keys block.removed_keys,
   bExtend txn.new_or_updated_keys
     (block.new_or_updated_keys.filter (fun e => !(sMem e.1 txn.removed_keys)))⟩

/-- Published state of a `lib.rs` `Storage`: the staging-buffer scalar slot
and the base map. -/
structure StorageState (K V : Type) where
  latest_block : BlockInner K V
  blocks : List (K × V)

/-- `Storage::new`. -/
def storageNew : StorageState K V :=
  ⟨BlockInner.empty, []⟩

/-- Well-formed storage state. -/
def StateWF (st : StorageState K V) : Prop :=
  InnerWF st.latest_block ∧ bSorted st.blocks

/-- One operation of the replay harness: `(k, some v)` is `Block::insert`,
`(k, none)` is `Block::remove`. -/
def applyOpInner (inner : BlockInner K V) (op : K × Option V) : BlockInner K V :=
  match op.2 with
  | some v => inner.insert op.1 v
  | none => inner.remove op.1

/-- Staging buffer accumulated by a fresh block that performs `ops`. -/
def blockOps (ops : List (K × Option V)) : BlockInner K V :=
  ops.foldl applyOpInner BlockInner.empty

/-- Replay of one `(committed, ops)` step from `lib.rs`: a block is opened
with `Storage::block(false)` (merging the previous staging buffer into the
base inside the write transactions), `ops` are applied, and the block is
either committed (publishing both write transactions) or dropped (both
write transactions are discarded, leaving the published state intact). -/
def replayBlock (st : StorageState K V) (committed : Bool) (ops : List (K × Option V)) :
    StorageState K V :=
  if committed then ⟨blockOps ops, applyStaging st.latest_block st.blocks⟩ else st

/-- Replay of a block sequence against a fresh `Storage`. -/
def replay (txs : List (Bool × List (K × Option V))) : StorageState K V :=
  txs.foldl (fun st t => replayBlock st t.1 t.2) storageNew

/-- One operation applied to the reference ordered map. -/
def refApplyOp (m : List (K × V)) (op : K × Option V) : List (K × V) :=
  match op.2 with
  | some v => bInsert op.1 v m
  | none => bErase op.1 m

/-- Reference replay: only committed steps touch the reference map. -/
def refReplay (txs : List (Bool × List (K × Option V))) : List (K × V) :=
  txs.foldl (fun m t => if t.1 then t.2.foldl refApplyOp m else m) []

/-- `Storage::block(true)` followed by `Block::commit` in `lib.rs`: the
previous staging buffer is taken and discarded (not merged), the base map
is left untouched, and the empty staging buffer of the revert block is
published. -/
def revertCommit (st : StorageState K V) : StorageState K V :=
  ⟨BlockInner.empty, st.blocks⟩

/-- The snapshot a reader captures between the two publications inside
`Block::commit` (`self.blocks.commit()` has run, `self.latest_block.commit()`
has not): the base already contains the merge of the pre-open staging
buffer, while the staging-buffer slot still holds that same pre-open
staging buffer. -/
def midCommitSnapshot (st : StorageState K V) : StorageState K V :=
  ⟨st.latest_block, applyStaging st.latest_block st.blocks⟩

/-- Itertools `merge_by` with the predicate `|l, r| l.0 <= r.0` used by every
`iter`/`range` in `lib.rs`: take from the left iterator while its head key
is `≤` the right head key. -/
def mergeBy : List (K × β) → List (K × β) → List (K × β)
  | [], r => r
  | l, [] => l
  | a :: l, b :: r =>
    if a.1 ≤ b.1 then a :: mergeBy l (b :: r) else b :: mergeBy (a :: l) r

/-- Itertools `dedup_by` with the predicate `|l, r| l.0 == r.0`: of each run
of consecutive entries with equal keys, keep the first. -/
def dedupKeys : List (K × β) → List (K × β)
  | [] => []
  | [a] => [a]
  | a :: b :: rest =>
    if a.1 = b.1 then dedupKeys (a :: rest) else a :: dedupKeys (b :: rest)

/-- The tombstone filter of `iter`/`range` in `lib.rs`: walk the base
entries, advancing the removed-keys iterator in parallel; drop a base entry
exactly when the head of the removed-keys iterator equals its key. -/
def filterRem (rem : List K) : List (K × β) → List (K × β)
  | [] => []
  | e :: rest =>
    match rem.dropWhile (fun r => r < e.1) with
    | [] => e :: filterRem [] rest
    | r :: rem3 =>
      if r = e.1 then filterRem rem3 rest
      else e :: filterRem (r :: rem3) rest

/-- The merging iterator of `lib.rs` (`View::iter` and `Block::iter`):
overrides merged over the tombstone-filtered base, override first on equal
keys, deduplicated by key. -/
def mergeEntries (inner : BlockInner K V) (blocks : List (K × V)) : List (K × V) :=
  dedupKeys (mergeBy inner.new_or_updated_keys (filterRem inner.removed_keys blocks))

/-- One `std::ops::Bound` endpoint. -/
inductive RBound (K : Type) where
  | unbounded
  | included (k : K)
  | excluded (k : K)

/-- Whether `k` is above the lower bound. -/
def RBound.lowOk : RBound K → K → Bool
  | .unbounded, _ => true
  | .included lo, k => decide (lo ≤ k)
  | .excluded lo, k => decide (lo < k)

/-- Whether `k` is below the upper bound. -/
def RBound.highOk : RBound K → K → Bool
  | .unbounded, _ => true
  | .included hi, k => decide (k ≤ hi)
  | .excluded hi, k => decide (k < hi)

/-- Whether `k` satisfies both bounds. -/
def inBounds (lo hi : RBound K) (k : K) : Bool :=
  lo.lowOk k && hi.highOk k

/-- Model of the ordered-map `range(bounds)` iterator: the entries whose
keys satisfy the bounds, in ascending order. -/
def bRange (lo hi : RBound K) (l : List (K × β)) : List (K × β) :=
  l.filter (fun e => inBounds lo hi e.1)

/-- `View::range` / `Block::range` of `lib.rs`: overrides and base each
started from the bounds, tombstones scanned from the beginning, then the
same merge/dedup pipeline as `iter`. -/
def rangeEntries (inner : BlockInner K V) (blocks : List (K × V)) (lo hi : RBound K) :
    List (K × V) :=
  dedupKeys (mergeBy (bRange lo hi inner.new_or_updated_keys)
    (filterRem inner.removed_keys (bRange lo hi blocks)))

/-- A live `lib.rs` `Transaction`: its private staging buffer over the
enclosing block's state. -/
structure TxnState (K V : Type) where
  latest_block : BlockInner K V
  block : StorageState K V

/-- `Transaction::iter` of `lib.rs`: the transaction's private staging
buffer merged over the block's own merging iterator. -/
def txnEntries (t : TxnState K V) : List (K × V) :=
  mergeEntries t.latest_block (mergeEntries t.block.latest_block t.block.blocks)

/-- `Transaction::range` of `lib.rs`: private overrides from the bounds,
private tombstones from the beginning, over `Block::range`. -/
def txnRangeEntries (t : TxnState K V) (lo hi : RBound K) : List (K × V) :=
  dedupKeys (mergeBy (bRange lo hi t.latest_block.new_or_updated_keys)
    (filterRem t.latest_block.removed_keys
      (rangeEntries t.block.latest_block t.block.blocks lo hi)))

/-- Well-formed transaction state. -/
def TxnWF (t : TxnState K V) : Prop :=
  InnerWF t.latest_block ∧ StateWF t.block

/-- Generation history of a `lib.rs` `Storage`: the `EbrCell` holding the
staging buffer and the `BptreeMap` are persistent multi-version structures,
so publications append generations and readers pin the generation they
captured.  Earliest generation first. -/
structure StorageHist (K V : Type) where
  latest_gens : List (BlockInner K V)
  blocks_gens : List (List (K × V))

/-- A `View`: the pair of read handles (pinned generations) captured by
`Storage::view`. -/
structure ViewHandle where
  latest_idx : Nat
  blocks_idx : Nat

/-- `Storage::view`: capture read handles on the current generation of both
structures. -/
def takeView (h : StorageHist K V) : ViewHandle :=
  ⟨h.latest_gens.length - 1, h.blocks_gens.length - 1⟩

/-- `View::get` through a handle: dereference the pinned generations and
look the key up through the captured staging buffer over the captured base.
Returns `none` (no snapshot) for a dangling handle. -/
def readView (h : StorageHist K V) (v : ViewHandle) (k : K) : Option (Option V) :=
  match h.latest_gens[v.latest_idx]?, h.blocks_gens[v.blocks_idx]? with
  | some inner, some blocks => some (viewGet inner blocks k)
  | _, _ => none

/-- Current published state of the history. -/
def curState (h : StorageHist K V) : StorageState K V :=
  ⟨h.latest_gens.getLastD BlockInner.empty, h.blocks_gens.getLastD []⟩

/-- One committed block in the history model: `Storage::block(revert)` is
opened (merging or discarding the previous staging buffer), `ops` are
applied, and `Block::commit` publishes a new generation of both
structures.  Old generations stay in place for pinned readers. -/
def histStep (h : StorageHist K V) (step : Bool × List (K × Option V)) : StorageHist K V :=
  ⟨h.latest_gens ++ [blockOps step.2],
   h.blocks_gens ++
     [if step.1 then (curState h).blocks
      else applyStaging (curState h).latest_block (curState h).blocks]⟩

end Mv

namespace MvStorage

variable {K : Type} {V : Type} [LinearOrder K]

open Mv

/-- A `storage.rs` `Block` (the published `Storage` has the same two
fields): the rollback log `revert` mapping each touched key to its pre-block
value (`none` marking prior absence), and the base map `blocks`. -/
structure BlockSt (K V : Type) where
  revert : List (K × Option V)
  blocks : List (K × V)

/-- One write operation on a `storage.rs` `Block` (or `Transaction`, whose
mechanics over its own log are identical): `insert`, `remove`, or a
`get_mut` access that mutates the value in place through the returned
reference. -/
inductive StOp (K V : Type) where
  | insert (k : K) (v : V)
  | remove (k : K)
  | getMut (k : K) (f : V → V)

/-- Step of a `storage.rs` block or transaction: each write first records
the previous value into the log with `entry(key).or_insert(prev)` (first
write wins), then mutates the base map.  `get_mut` on an absent key does
nothing. -/
def stepSt (b : BlockSt K V) : StOp K V → BlockSt K V
  | .insert k v => ⟨orInsert k (bGet k b.blocks) b.revert, bInsert k v b.blocks⟩
  | .remove k => ⟨orInsert k (bGet k b.blocks) b.revert, bErase k b.blocks⟩
  | .getMut k f =>
    match bGet k b.blocks with
    | none => b
    | some v => ⟨orInsert k (some v) b.revert, bInsert k (f v) b.blocks⟩

/-- A block opened by `Storage::block` on base `B0` (the rollback log is
cleared at open) after performing `ops`. -/
def replaySt (ops : List (StOp K V)) (B0 : List (K × V)) : BlockSt K V :=
  ops.foldl stepSt ⟨[], B0⟩

/-- Application of a rollback log to a base map: the loop of
`Storage::block_and_revert` (and of `Drop for Transaction`): a `none` entry
removes the key, a `some v` entry restores the value. -/
def bRestore (log : List (K × Option V)) (m : List (K × V)) : List (K × V) :=
  log.foldl
    (fun m e =>
      match e.2 with
      | none => bErase e.1 m
      | some v => bInsert e.1 v m)
    m

/-- `Storage::block_and_revert` followed by `Block::commit`: the log is
taken (leaving it empty), applied to the base, and the revert block commits
without further writes. -/
def blockAndRevertCommit (s : BlockSt K V) : BlockSt K V :=
  ⟨[], bRestore s.revert s.blocks⟩

/-- Resolution of a (log, base) pair at one key: the log entry if present,
else the base. -/
def resolve (log : List (K × Option V)) (m : List (K × V)) (k : K) : Option V :=
  match bGet k log with
  | some ov => ov
  | none => bGet k m

end MvStorage

namespace MvCell

variable {V : Type}

/-- One operation inside a `cell.rs` block: a `Block::get_mut` access whose
returned mutable reference is used to turn the value `v` into `f v`, or a
complete transaction performing the accesses `fs` and then either applied
or dropped. -/
inductive CellOp (V : Type) where
  | getMut (f : V → V)
  | txn (fs : List (V → V)) (applied : Bool)

/-- State of a live `cell.rs` block: the rollback slot and the current
value. -/
def CellSt (V : Type) : Type :=
  Option V × V

/-- The body of `get_mut`: `revert.get_or_insert(value.clone())` records the
current value on the first access only, then the caller mutates. -/
def mutStep (s : CellSt V) (f : V → V) : CellSt V :=
  (match s.1 with
   | some p => some p
   | none => some s.2,
   f s.2)

/-- A whole transaction on a `cell.rs` block: the transaction's private
rollback slot starts empty; each `Transaction::get_mut` records into it
first-write-wins; `apply` transfers the recorded prior value into the
block's slot with `get_or_insert`; drop without `apply` writes the recorded
prior value back into the cell. -/
def cellStep (s : CellSt V) : CellOp V → CellSt V
  | .getMut f => mutStep s f
  | .txn fs applied =>
    let t := fs.foldl mutStep ((none : Option V), s.2)
    if applied then
      (match t.1 with
       | none => s.1
       | some p =>
         match s.1 with
         | some q => some q
         | none => some p,
       t.2)
    else
      (s.1,
       match t.1 with
       | none => t.2
       | some p => p)

/-- A `cell.rs` block opened by `Cell::block` (which clears the rollback
slot) on a cell holding `v0`, after performing `ops`. -/
def cellReplay (v0 : V) (ops : List (CellOp V)) : CellSt V :=
  ops.foldl cellStep (none, v0)

/-- The value a fresh view reads after the block commits, a revert block is
opened with `Cell::block_and_revert` (writing the rollback slot's content,
if any, back into the value slot) and committed. -/
def revertValue (s : CellSt V) : V :=
  match s.1 with
  | some p => p
  | none => s.2

end MvCell

namespace MvSerde

/-- Deserialization errors surfaced by the `serde.rs` visitors. -/
inductive DeError where
  | invalidLength (n : Nat)
  | unknownField (s : String)
  | duplicateField (s : String)
  | missingField (s : String)
  | payload
deriving DecidableEq

/-- The two struct fields of `Storage` and `Cell`. -/
inductive Field where
  | rollback
  | blocks

/-- `FieldVisitor::visit_str`: only the exact literals `"rollback"` and
`"blocks"` parse; anything else is `unknown_field`. -/
def parseField (s : String) : Except DeError Field :=
  if s = "rollback" then .ok .rollback
  else if s = "blocks" then .ok .blocks
  else .error (.unknownField s)

/-- `visit_seq` of `StorageSeededVisitor` / `CellSeededVisitor`: the first
element is parsed with the rollback seed, the second with the blocks seed;
a missing element is `invalid_length`.  `D` stands for an encoded element,
`pr`/`pb` for the two seeded payload parsers. -/
def visitSeq {D R B : Type} (pr : D → Except DeError R) (pb : D → Except DeError B) :
    List D → Except DeError (R × B)
  | [] => .error (.invalidLength 0)
  | x :: rest =>
    match pr x with
    | .error e => .error e
    | .ok r =>
      match rest with
      | [] => .error (.invalidLength 1)
      | y :: _ =>
        match pb y with
        | .error e => .error e
        | .ok b => .ok (r, b)

/-- The `visit_map` loop of `StorageSeededVisitor` / `CellSeededVisitor`:
parse each key through `FieldVisitor`, reject duplicates, parse the value
with the matching seed; at the end both fields must have been seen. -/
def visitMapGo {D R B : Type} (pr : D → Except DeError R) (pb : D → Except DeError B) :
    List (String × D) → Option R → Option B → Except DeError (R × B)
  | [], rb?, bl? =>
    match rb? with
    | none => .error (.missingField "rollback")
    | some r =>
      match bl? with
      | none => .error (.missingField "blocks")
      | some b => .ok (r, b)
  | (s, d) :: rest, rb?, bl? =>
    match parseField s with
    | .error e => .error e
    | .ok .rollback =>
      if rb?.isSome then .error (.duplicateField "rollback")
      else
        match pr d with
        | .error e => .error e
        | .ok r => visitMapGo pr pb rest (some r) bl?
    | .ok .blocks =>
      if bl?.isSome then .error (.duplicateField "blocks")
      else
        match pb d with
        | .error e => .error e
        | .ok b => visitMapGo pr pb rest rb? (some b)

/-- `visit_map` entry point: no field seen yet. -/
def visitMap {D R B : Type} (pr : D → Except DeError R) (pb : D → Except DeError B)
    (entries : List (String × D)) : Except DeError (R × B) :=
  visitMapGo pr pb entries none none

/-- Number of occurrences of the field name `s` among the keys of an
encoded object's entries: zero occurrences of a required field is a missing
field, two or more of the same field is a duplicate. -/
def countField {D : Type} (s : String) : List (String × D) → Nat
  | [] => 0
  | e :: rest => (if e.1 = s then 1 else 0) + countField s rest

end MvSerde

namespace Mv

variable {K : Type} {V : Type} {β : Type} [LinearOrder K]

theorem bGet_eq_none {k : K} {l : List (K × β)} (h : ∀ e ∈ l, e.1 ≠ k) :
    bGet k l = none := by
  induction l with
  | nil => rfl
  | cons e rest ih =>
    have hk : ¬ k = e.1 := fun hh => h e (List.mem_cons_self e rest) hh.symm
    simp only [bGet, if_neg hk]
    exact ih fun x hx => h x (List.mem_cons_of_mem _ hx)

theorem bGet_cons_head {e : K × β} {rest : List (K × β)} :
    bGet e.1 (e :: rest) = some e.2 := by
  simp [bGet]

theorem bGet_bInsert (k k0 : K) (v : β) (l : List (K × β)) :
    bGet k (bInsert k0 v l) = if k = k0 then some v else bGet k l := by
  induction l with
  | nil => simp [bInsert, bGet]
  | cons e rest ih =>
    rcases lt_trichotomy k0 e.1 with h1 | h1 | h1
    · simp only [bInsert, if_pos h1, bGet]
    · have hlt : ¬ k0 < e.1 := by simp [h1]
      by_cases hk : k = k0
      · simp [bInsert, hlt, h1, bGet, hk]
      · have hke : ¬ k = e.1 := by rw [← h1]; exact hk
        simp [bInsert, hlt, h1, bGet, hk, hke]
    · have hne : ¬ k0 < e.1 := not_lt_of_gt h1
      have hne2 : ¬ k0 = e.1 := ne_of_gt h1
      simp only [bInsert, if_neg hne, if_neg hne2, bGet, ih]
      by_cases hk : k = e.1
      · have hkk : ¬ e.1 = k0 := fun hh => hne2 hh.symm
        simp [hk, hkk]
      · simp [hk]

theorem bGet_bErase {k k0 : K} {l : List (K × β)} (hs : bSorted l) :
    bGet k (bErase k0 l) = if k = k0 then none else bGet k l := by
  induction l with
  | nil => simp [bErase, bGet]
  | cons e rest ih =>
    rw [bSorted, List.pairwise_cons] at hs
    by_cases h0 : k0 = e.1
    · simp only [bErase, if_pos h0]
      by_cases hk : k = k0
      · rw [if_pos hk, hk, h0]
        exact bGet_eq_none fun x hx => ne_of_gt (hs.1 x hx)
      · have hke : ¬ k = e.1 := by rw [← h0]; exact hk
        simp [bGet, hk, hke]
    · simp only [bErase, if_neg h0, bGet]
      by_cases hk : k = e.1
      · have hkk : ¬ e.1 = k0 := fun hh => h0 hh.symm
        simp [hk, hkk]
      · simp [hk, ih hs.2]

theorem sMem_eq_false {k : K} {s : List K} (h : ∀ x ∈ s, x ≠ k) :
    sMem k s = false := by
  induction s with
  | nil => rfl
  | cons x rest ih =>
    have hk : ¬ k = x := fun hh => h x (List.mem_cons_self x rest) hh.symm
    simp only [sMem, if_neg hk]
    exact ih fun y hy => h y (List.mem_cons_of_mem _ hy)

theorem sMem_sInsert (k k0 : K) (s : List K) :
    sMem k (sInsert k0 s) = (if k = k0 then true else sMem k s) := by
  induction s with
  | nil => simp [sInsert, sMem]
  | cons x rest ih =>
    rcases lt_trichotomy k0 x with h1 | h1 | h1
    · simp only [sInsert, if_pos h1, sMem]
    · have hlt : ¬ k0 < x := by simp [h1]
      by_cases hk : k = k0
      · simp [sInsert, hlt, h1, sMem, hk]
      · have hke : ¬ k = x := by rw [← h1]; exact hk
        simp [sInsert, hlt, h1, sMem, hk, hke]
    · have hne : ¬ k0 < x := not_lt_of_gt h1
      have hne2 : ¬ k0 = x := ne_of_gt h1
      simp only [sInsert, if_neg hne, if_neg hne2, sMem, ih]
      by_cases hk : k = x
      · have hkk : ¬ x = k0 := fun hh => hne2 hh.symm
        simp [hk, hkk]
      · simp [hk]

theorem sMem_sErase {k k0 : K} {s : List K} (hs : sSorted s) :
    sMem k (sErase k0 s) = (if k = k0 then false else sMem k s) := by
  induction s with
  | nil => simp [sErase, sMem]
  | cons x rest ih =>
    rw [sSorted, List.pairwise_cons] at hs
    by_cases h0 : k0 = x
    · simp only [sErase, if_pos h0]
      by_cases hk : k = k0
      · rw [if_pos hk, hk, h0]
        exact sMem_eq_false fun y hy => ne_of_gt (hs.1 y hy)
      · have hke : ¬ k = x := by rw [← h0]; exact hk
        simp [sMem, hk, hke]
    · simp only [sErase, if_neg h0, sMem]
      by_cases hk : k = x
      · have hkk : ¬ x = k0 := fun hh => h0 hh.symm
        simp [hk, hkk]
      · simp [hk, ih hs.2]

end Mv



namespace Mv

variable {K : Type} {V : Type} {β : Type} [LinearOrder K]

theorem bEraseAll_nil {m : List (K × β)} : bEraseAll [] m = m := rfl

theorem bEraseAll_cons {k0 : K} {ks : List K} {m : List (K × β)} :
    bEraseAll (k0 :: ks) m = bEraseAll ks (bErase k0 m) := rfl

theorem bExtend_nil {m : List (K × β)} : bExtend [] m = m := rfl

theorem bExtend_cons {e : K × β} {es : List (K × β)} {m : List (K × β)} :
    bExtend (e :: es) m = bExtend es (bInsert e.1 e.2 m) := rfl

theorem sExtend_nil {s : List K} : sExtend [] s = s := rfl

theorem sExtend_cons {k0 : K} {ks : List K} {s : List K} :
    sExtend (k0 :: ks) s = sExtend ks (sInsert k0 s) := rfl

theorem bErase_sublist (k : K) (l : List (K × β)) : List.Sublist (bErase k l) l := by
  induction l with
  | nil => simp [bErase]
  | cons e rest ih =>
    by_cases hk : k = e.1
    · simp only [bErase, if_pos hk]
      exact List.sublist_cons_self e rest
    · simp only [bErase, if_neg hk]
      exact List.Sublist.cons₂ e ih

theorem sErase_sublist (k : K) (s : List K) : List.Sublist (sErase k s) s := by
  induction s with
  | nil => simp [sErase]
  | cons x rest ih =>
    by_cases hk : k = x
    · simp only [sErase, if_pos hk]
      exact List.sublist_cons_self x rest
    · simp only [sErase, if_neg hk]
      exact List.Sublist.cons₂ x ih

theorem bSorted_bErase {k : K} {l : List (K × β)} (hs : bSorted l) :
    bSorted (bErase k l) :=
  List.Pairwise.sublist (bErase_sublist k l) hs

theorem sSorted_sErase {k : K} {s : List K} (hs : sSorted s) :
    sSorted (sErase k s) :=
  List.Pairwise.sublist (sErase_sublist k s) hs

theorem mem_bInsert {e : K × β} {k : K} {v : β} {l : List (K × β)}
    (h : e ∈ bInsert k v l) : e = (k, v) ∨ e ∈ l := by
  induction l with
  | nil => simpa [bInsert] using h
  | cons f rest ih =>
    rcases lt_trichotomy k f.1 with h1 | h1 | h1
    · rw [bInsert, if_pos h1] at h
      simpa using h
    · have hlt : ¬ k < f.1 := by simp [h1]
      rw [bInsert, if_neg hlt, if_pos h1] at h
      rcases List.mem_cons.mp h with h2 | h2
      · exact Or.inl h2
      · exact Or.inr (List.mem_cons_of_mem _ h2)
    · have hlt : ¬ k < f.1 := not_lt_of_gt h1
      have hne : ¬ k = f.1 := ne_of_gt h1
      rw [bInsert, if_neg hlt, if_neg hne] at h
      rcases List.mem_cons.mp h with h2 | h2
      · exact Or.inr (h2 ▸ List.mem_cons_self f rest)
      · rcases ih h2 with h3 | h3
        · exact Or.inl h3
        · exact Or.inr (List.mem_cons_of_mem _ h3)

theorem mem_sInsert {x k : K} {s : List K} (h : x ∈ sInsert k s) :
    x = k ∨ x ∈ s := by
  induction s with
  | nil => simpa [sInsert] using h
  | cons y rest ih =>
    rcases lt_trichotomy k y with h1 | h1 | h1
    · rw [sInsert, if_pos h1] at h
      simpa using h
    · have hlt : ¬ k < y := by simp [h1]
      rw [sInsert, if_neg hlt, if_pos h1] at h
      exact Or.inr h
    · have hlt : ¬ k < y := not_lt_of_gt h1
      have hne : ¬ k = y := ne_of_gt h1
      rw [sInsert, if_neg hlt, if_neg hne] at h
      rcases List.mem_cons.mp h with h2 | h2
      · exact Or.inr (h2 ▸ List.mem_cons_self y rest)
      · rcases ih h2 with h3 | h3
        · exact Or.inl h3
        · exact Or.inr (List.mem_cons_of_mem _ h3)

theorem bSorted_bInsert {k : K} {v : β} {l : List (K × β)} (hs : bSorted l) :
    bSorted (bInsert k v l) := by
  induction l with
  | nil => simp [bInsert, bSorted]
  | cons f rest ih =>
    rw [bSorted, List.pairwise_cons] at hs
    rcases lt_trichotomy k f.1 with h1 | h1 | h1
    · rw [bInsert, if_pos h1, bSorted, List.pairwise_cons]
      refine ⟨?_, List.pairwise_cons.mpr hs⟩
      intro b hb
      rcases List.mem_cons.mp hb with h2 | h2
      · exact h2 ▸ h1
      · exact h1.trans (hs.1 b h2)
    · have hlt : ¬ k < f.1 := by simp [h1]
      rw [bInsert, if_neg hlt, if_pos h1, bSorted, List.pairwise_cons]
      exact ⟨fun b hb => h1 ▸ hs.1 b hb, hs.2⟩
    · have hlt : ¬ k < f.1 := not_lt_of_gt h1
      have hne : ¬ k = f.1 := ne_of_gt h1
      rw [bInsert, if_neg hlt, if_neg hne, bSorted, List.pairwise_cons]
      refine ⟨?_, ih hs.2⟩
      intro b hb
      rcases mem_bInsert hb with h2 | h2
      · exact h2 ▸ h1
      · exact hs.1 b h2

theorem sSorted_sInsert {k : K} {s : List K} (hs : sSorted s) :
    sSorted (sInsert k s) := by
  induction s with
  | nil => simp [sInsert, sSorted]
  | cons y rest ih =>
    rw [sSorted, List.pairwise_cons] at hs
    rcases lt_trichotomy k y with h1 | h1 | h1
    · rw [sInsert, if_pos h1, sSorted, List.pairwise_cons]
      refine ⟨?_, List.pairwise_cons.mpr hs⟩
      intro b hb
      rcases List.mem_cons.mp hb with h2 | h2
      · exact h2 ▸ h1
      · exact h1.trans (hs.1 b h2)
    · have hlt : ¬ k < y := by simp [h1]
      rw [sInsert, if_neg hlt, if_pos h1, sSorted, List.pairwise_cons]
      exact ⟨hs.1, hs.2⟩
    · have hlt : ¬ k < y := not_lt_of_gt h1
      have hne : ¬ k = y := ne_of_gt h1
      rw [sInsert, if_neg hlt, if_neg hne, sSorted, List.pairwise_cons]
      refine ⟨?_, ih hs.2⟩
      intro b hb
      rcases mem_sInsert hb with h2 | h2
      · exact h2 ▸ h1
      · exact hs.1 b h2

theorem bSorted_bEraseAll {ks : List K} {m : List (K × β)} (hm : bSorted m) :
    bSorted (bEraseAll ks m) := by
  induction ks generalizing m with
  | nil => exact hm
  | cons k0 ks ih =>
    rw [bEraseAll_cons]
    exact ih (bSorted_bErase hm)

theorem bGet_bEraseAll {k : K} {ks : List K} {m : List (K × β)} (hm : bSorted m) :
    bGet k (bEraseAll ks m) = if sMem k ks then none else bGet k m := by
  induction ks generalizing m with
  | nil => simp [bEraseAll_nil, sMem]
  | cons k0 ks ih =>
    rw [bEraseAll_cons, ih (bSorted_bErase hm), bGet_bErase hm]
    by_cases hk : k = k0
    · simp [sMem, hk]
    · simp [sMem, hk]

theorem bSorted_bExtend {es m : List (K × β)} (hm : bSorted m) :
    bSorted (bExtend es m) := by
  induction es generalizing m with
  | nil => exact hm
  | cons e es ih =>
    rw [bExtend_cons]
    exact ih (bSorted_bInsert hm)

theorem bGet_bExtend {k : K} {es m : List (K × β)} (hes : bSorted es) (hm : bSorted m) :
    bGet k (bExtend es m) =
      match bGet k es with
      | some v => some v
      | none => bGet k m := by
  induction es generalizing m with
  | nil => simp [bExtend_nil, bGet]
  | cons e es ih =>
    rw [bSorted, List.pairwise_cons] at hes
    rw [bExtend_cons, ih hes.2 (bSorted_bInsert hm)]
    by_cases hk : k = e.1
    · subst hk
      have h0 : bGet e.1 es = none := bGet_eq_none fun x hx => ne_of_gt (hes.1 x hx)
      simp [h0, bGet, bGet_bInsert]
    · cases hbg : bGet k es with
      | none => simp [bGet, hk, hbg, bGet_bInsert]
      | some v => simp [bGet, hk, hbg]

theorem bSorted_applyStaging {inner : BlockInner K V} {blocks : List (K × V)}
    (hb : bSorted blocks) : bSorted (applyStaging inner blocks) :=
  bSorted_bExtend (bSorted_bEraseAll hb)

theorem bGet_applyStaging {inner : BlockInner K V} {blocks : List (K × V)}
    (hi : InnerWF inner) (hb : bSorted blocks) (k : K) :
    bGet k (applyStaging inner blocks) = viewGet inner blocks k := by
  rw [applyStaging, bGet_bExtend hi.2 (bSorted_bEraseAll hb),
    bGet_bEraseAll hb, viewGet]
  cases bGet k inner.new_or_updated_keys <;> rfl

end Mv

namespace Mv

variable {K : Type} {V : Type} {β : Type} [LinearOrder K]

theorem InnerWF_empty : InnerWF (BlockInner.empty : BlockInner K V) :=
  ⟨List.Pairwise.nil, List.Pairwise.nil⟩

theorem InnerWF_insert {inner : BlockInner K V} {k : K} {v : V} (hi : InnerWF inner) :
    InnerWF (inner.insert k v) :=
  ⟨sSorted_sErase hi.1, bSorted_bInsert hi.2⟩

theorem InnerWF_remove {inner : BlockInner K V} {k : K} (hi : InnerWF inner) :
    InnerWF (inner.remove k) :=
  ⟨sSorted_sInsert hi.1, bSorted_bErase hi.2⟩

theorem viewGet_empty (blocks : List (K × V)) (k : K) :
    viewGet BlockInner.empty blocks k = bGet k blocks := by
  simp [viewGet, BlockInner.empty, bGet, sMem]

theorem viewGet_insert {inner : BlockInner K V} (hi : InnerWF inner)
    (blocks : List (K × V)) (k0 : K) (v : V) (k : K) :
    viewGet (inner.insert k0 v) blocks k =
      if k = k0 then some v else viewGet inner blocks k := by
  rw [viewGet, BlockInner.insert]
  simp only
  rw [bGet_bInsert, sMem_sErase hi.1]
  by_cases hk : k = k0
  · simp [hk]
  · simp only [if_neg hk, viewGet]

theorem viewGet_remove {inner : BlockInner K V} (hi : InnerWF inner)
    (blocks : List (K × V)) (k0 : K) (k : K) :
    viewGet (inner.remove k0) blocks k =
      if k = k0 then none else viewGet inner blocks k := by
  rw [viewGet, BlockInner.remove]
  simp only
  rw [bGet_bErase hi.2, sMem_sInsert]
  by_cases hk : k = k0
  · simp [hk]
  · simp only [if_neg hk, viewGet]

theorem InnerWF_applyOpInner {inner : BlockInner K V} {op : K × Option V}
    (hi : InnerWF inner) : InnerWF (applyOpInner inner op) := by
  rw [applyOpInner]
  cases op.2 with
  | none => exact InnerWF_remove hi
  | some v => exact InnerWF_insert hi

theorem viewGet_applyOpInner {inner : BlockInner K V} {op : K × Option V}
    (hi : InnerWF inner) (blocks : List (K × V)) (k : K) :
    viewGet (applyOpInner inner op) blocks k =
      if k = op.1 then op.2 else viewGet inner blocks k := by
  rw [applyOpInner]
  cases op.2 with
  | none => exact viewGet_remove hi blocks op.1 k
  | some v => exact viewGet_insert hi blocks op.1 v k

theorem bSorted_refApplyOp {m : List (K × V)} {op : K × Option V} (hm : bSorted m) :
    bSorted (refApplyOp m op) := by
  rw [refApplyOp]
  cases op.2 with
  | none => exact bSorted_bErase hm
  | some v => exact bSorted_bInsert hm

theorem bGet_refApplyOp {m : List (K × V)} {op : K × Option V} (hm : bSorted m) (k : K) :
    bGet k (refApplyOp m op) = if k = op.1 then op.2 else bGet k m := by
  rw [refApplyOp]
  cases op.2 with
  | none => exact bGet_bErase hm
  | some v => exact bGet_bInsert k op.1 v m

theorem replay_ops_pointwise {ops : List (K × Option V)} {inner : BlockInner K V}
    {blocks ref : List (K × V)} (hi : InnerWF inner) (hr : bSorted ref)
    (hinv : ∀ k, viewGet inner blocks k = bGet k ref) :
    InnerWF (ops.foldl applyOpInner inner) ∧ bSorted (ops.foldl refApplyOp ref) ∧
      ∀ k, viewGet (ops.foldl applyOpInner inner) blocks k =
        bGet k (ops.foldl refApplyOp ref) := by
  induction ops generalizing inner ref with
  | nil => exact ⟨hi, hr, hinv⟩
  | cons op ops ih =>
    simp only [List.foldl_cons]
    refine ih (InnerWF_applyOpInner hi) (bSorted_refApplyOp hr) ?_
    intro k
    rw [viewGet_applyOpInner hi, bGet_refApplyOp hr]
    by_cases hk : k = op.1
    · simp [hk]
    · simp [hk, hinv k]

theorem replay_consistent_aux {txs : List (Bool × List (K × Option V))}
    {st : StorageState K V} {ref : List (K × V)} (hst : StateWF st) (hr : bSorted ref)
    (hinv : ∀ k, viewGet st.latest_block st.blocks k = bGet k ref) :
    StateWF (txs.foldl (fun st t => replayBlock st t.1 t.2) st) ∧
      bSorted (txs.foldl (fun m t => if t.1 then t.2.foldl refApplyOp m else m) ref) ∧
      ∀ k,
        viewGet (txs.foldl (fun st t => replayBlock st t.1 t.2) st).latest_block
            (txs.foldl (fun st t => replayBlock st t.1 t.2) st).blocks k =
          bGet k (txs.foldl (fun m t => if t.1 then t.2.foldl refApplyOp m else m) ref) := by
  induction txs generalizing st ref with
  | nil => exact ⟨hst, hr, hinv⟩
  | cons t txs ih =>
    simp only [List.foldl_cons]
    cases hc : t.1 with
    | false =>
      rw [replayBlock, if_neg (by simp)]
      rw [if_neg (by simp)]
      exact ih hst hr hinv
    | true =>
      rw [replayBlock, if_pos rfl, if_pos rfl]
      have hbase : bSorted (applyStaging st.latest_block st.blocks) :=
        bSorted_applyStaging hst.2
      have hstart : ∀ k,
          viewGet BlockInner.empty (applyStaging st.latest_block st.blocks) k = bGet k ref := by
        intro k
        rw [viewGet_empty, bGet_applyStaging hst.1 hst.2, hinv k]
      obtain ⟨hi2, hr2, hp2⟩ := replay_ops_pointwise InnerWF_empty hr hstart
      exact ih ⟨hi2, hbase⟩ hr2 hp2

/-- C1: replaying any finite sequence of blocks — each a list of operations
`(key, some v)` (`Block::insert`) or `(key, none)` (`Block::remove`),
each block opened with `Storage::block(false)` and then either committed or
dropped without commit — against a fresh `lib.rs` `Storage` and, for the
committed blocks only, against a reference ordered map, leaves the storage
in a state where a fresh `View::get` agrees with the reference map on every
key (in particular on every key the sequence touched). -/
theorem c1_storage_consistent_with_reference (txs : List (Bool × List (K × Option V)))
    (k : K) :
    viewGet (replay txs).latest_block (replay txs).blocks k = bGet k (refReplay txs) := by
  have h0 : StateWF (storageNew : StorageState K V) :=
    ⟨InnerWF_empty, List.Pairwise.nil⟩
  have h1 : bSorted ([] : List (K × V)) := List.Pairwise.nil
  have h2 : ∀ k, viewGet (storageNew : StorageState K V).latest_block storageNew.blocks k =
      bGet k ([] : List (K × V)) := by
    intro k
    rw [storageNew, viewGet_empty]
  exact (replay_consistent_aux h0 h1 h2).2.2 k

end Mv

namespace Mv

variable {K : Type} {V : Type} {β : Type} [LinearOrder K]

theorem bGet_eq_some_mem {k : K} {v : β} {l : List (K × β)} (h : bGet k l = some v) :
    (k, v) ∈ l := by
  induction l with
  | nil => simp [bGet] at h
  | cons e rest ih =>
    by_cases hk : k = e.1
    · rw [bGet, if_pos hk] at h
      have hv : e.2 = v := Option.some_inj.mp h
      have he : (k, v) = e := by rw [hk, ← hv]
      rw [he]
      exact List.mem_cons_self e rest
    · rw [bGet, if_neg hk] at h
      exact List.mem_cons_of_mem _ (ih h)

theorem bGet_head_eq_none {a : K × β} {t : List (K × β)} (h : bSorted (a :: t)) :
    bGet a.1 t = none := by
  rw [bSorted, List.pairwise_cons] at h
  exact bGet_eq_none fun x hx => ne_of_gt (h.1 x hx)

theorem bSorted_ext {l₁ l₂ : List (K × β)} (h₁ : bSorted l₁) (h₂ : bSorted l₂)
    (h : ∀ k, bGet k l₁ = bGet k l₂) : l₁ = l₂ := by
  induction l₁ generalizing l₂ with
  | nil =>
    cases l₂ with
    | nil => rfl
    | cons b t₂ =>
      have hb := h b.1
      simp [bGet] at hb
  | cons a t₁ ih =>
    cases l₂ with
    | nil =>
      have ha := h a.1
      simp [bGet] at ha
    | cons b t₂ =>
      have hab : a.1 = b.1 := by
        by_contra hne
        have ha := h a.1
        rw [bGet, if_pos rfl, bGet, if_neg hne] at ha
        have hmem₂ : (a.1, a.2) ∈ t₂ := bGet_eq_some_mem ha.symm
        rw [bSorted, List.pairwise_cons] at h₂
        have hba : b.1 < a.1 := h₂.1 (a.1, a.2) hmem₂
        have hb := h b.1
        have hne2 : ¬ b.1 = a.1 := ne_of_lt hba
        rw [bGet, if_neg hne2, bGet, if_pos rfl] at hb
        have hmem₁ : (b.1, b.2) ∈ t₁ := bGet_eq_some_mem hb
        rw [bSorted, List.pairwise_cons] at h₁
        exact absurd (h₁.1 (b.1, b.2) hmem₁) (not_lt_of_gt hba)
      have hval : a.2 = b.2 := by
        have ha := h a.1
        rw [bGet, if_pos rfl, bGet, if_pos hab] at ha
        exact Option.some_inj.mp ha
      have hhead : a = b := Prod.ext hab hval
      have htail : t₁ = t₂ := by
        refine ih (List.Pairwise.of_cons h₁) (List.Pairwise.of_cons h₂) ?_
        intro k
        by_cases hk : k = a.1
        · rw [hk, bGet_head_eq_none h₁, hab, bGet_head_eq_none h₂]
        · have hk2 : ¬ k = b.1 := hab ▸ hk
          have hkk := h k
          rw [bGet, if_neg hk, bGet, if_neg hk2] at hkk
          exact hkk
      rw [hhead, htail]

/-- C10: in `Block::commit` of `lib.rs` the base map write transaction is
published strictly before the staging-buffer write transaction (in the
source, `self.blocks.commit()` textually precedes
`self.latest_block.commit()`).  A reader that takes a view between the two
publications captures the new base (which already contains the merge of the
previously committed block's staging buffer) together with that same old
staging buffer; because the staging-buffer slot always holds the diff of
the most recently committed block over the new base, re-applying it changes
nothing, so the intermediate snapshot evaluates, at every key, exactly to
the storage state at the previous block boundary — never to a state with
writes applied twice. -/
theorem c10_commit_order_no_double_application (st : StorageState K V)
    (hst : StateWF st) (k : K) :
    viewGet (midCommitSnapshot st).latest_block (midCommitSnapshot st).blocks k =
      viewGet st.latest_block st.blocks k := by
  rw [midCommitSnapshot]
  simp only [viewGet, bGet_applyStaging hst.1 hst.2]
  cases hbg : bGet k st.latest_block.new_or_updated_keys with
  | some v => rfl
  | none =>
    by_cases hm : sMem k st.latest_block.removed_keys
    · simp [hbg, hm, viewGet]
    · simp [hbg, hm, viewGet]

/-- Closed witness for `c10_commit_order_no_double_application` at a
concrete storage state and key. -/
theorem c10_commit_order_no_double_application_witness :
    StateWF (⟨⟨[1], [(0, 5)]⟩, [(1, 7), (2, 8)]⟩ : StorageState Nat Nat) ∧
      viewGet
          (midCommitSnapshot (⟨⟨[1], [(0, 5)]⟩, [(1, 7), (2, 8)]⟩ : StorageState Nat Nat)).latest_block
          (midCommitSnapshot (⟨⟨[1], [(0, 5)]⟩, [(1, 7), (2, 8)]⟩ : StorageState Nat Nat)).blocks 1 =
        viewGet (⟨[1], [(0, 5)]⟩ : BlockInner Nat Nat) [(1, 7), (2, 8)] 1 :=
  have hwf : StateWF (⟨⟨[1], [(0, 5)]⟩, [(1, 7), (2, 8)]⟩ : StorageState Nat Nat) := by
    unfold StateWF InnerWF bSorted sSorted
    exact ⟨⟨by decide, by decide⟩, by decide⟩
  ⟨hwf, c10_commit_order_no_double_application _ hwf 1⟩

end Mv

namespace MvStorage

variable {K : Type} {V : Type} [LinearOrder K]

open Mv

theorem bRestore_nil {m : List (K × V)} : bRestore ([] : List (K × Option V)) m = m := rfl

theorem bRestore_cons {e : K × Option V} {log : List (K × Option V)} {m : List (K × V)} :
    bRestore (e :: log) m =
      bRestore log
        (match e.2 with
         | none => bErase e.1 m
         | some v => bInsert e.1 v m) := rfl

theorem bSorted_bRestore {log : List (K × Option V)} {m : List (K × V)} (hm : bSorted m) :
    bSorted (bRestore log m) := by
  induction log generalizing m with
  | nil => exact hm
  | cons e log ih =>
    rw [bRestore_cons]
    cases he : e.2 with
    | none =>
      simp only
      exact ih (bSorted_bErase hm)
    | some v =>
      simp only
      exact ih (bSorted_bInsert hm)

theorem resolve_nil {m : List (K × V)} (k : K) : resolve [] m k = bGet k m := by
  simp [resolve, bGet]

theorem bGet_bRestore {log : List (K × Option V)} {m : List (K × V)}
    (hl : bSorted log) (hm : bSorted m) (k : K) :
    bGet k (bRestore log m) = resolve log m k := by
  induction log generalizing m with
  | nil => rw [bRestore_nil, resolve_nil]
  | cons e log ih =>
    rw [bSorted, List.pairwise_cons] at hl
    rw [bRestore_cons]
    cases he : e.2 with
    | none =>
      simp only
      rw [ih hl.2 (bSorted_bErase hm), resolve, resolve]
      by_cases hk : k = e.1
      · have h0 : bGet k log = none :=
          bGet_eq_none fun x hx => ne_of_gt (hk ▸ hl.1 x hx)
        rw [h0, bGet, if_pos hk, he, bGet_bErase hm, if_pos hk]
      · rw [bGet, if_neg hk]
        cases bGet k log with
        | some ov => rfl
        | none => rw [bGet_bErase hm, if_neg hk]
    | some v =>
      simp only
      rw [ih hl.2 (bSorted_bInsert hm), resolve, resolve]
      by_cases hk : k = e.1
      · have h0 : bGet k log = none :=
          bGet_eq_none fun x hx => ne_of_gt (hk ▸ hl.1 x hx)
        rw [h0, bGet, if_pos hk, he, bGet_bInsert, if_pos hk]
      · rw [bGet, if_neg hk]
        cases bGet k log with
        | some ov => rfl
        | none => rw [bGet_bInsert, if_neg hk]

theorem bSorted_orInsert {k0 : K} {v : Option V} {l : List (K × Option V)}
    (hl : bSorted l) : bSorted (orInsert k0 v l) := by
  rw [orInsert]
  cases bGet k0 l with
  | none => exact bSorted_bInsert hl
  | some ov => exact hl

theorem journal_write {B0 m' : List (K × V)} {b : BlockSt K V} {k0 : K}
    (hinv : ∀ k, resolve b.revert b.blocks k = bGet k B0)
    (hm' : ∀ k, ¬ k = k0 → bGet k m' = bGet k b.blocks) :
    ∀ k, resolve (orInsert k0 (bGet k0 b.blocks) b.revert) m' k = bGet k B0 := by
  intro k
  rw [orInsert]
  cases hE : bGet k0 b.revert with
  | some ov =>
    simp only
    rw [resolve]
    by_cases hk : k = k0
    · rw [hk, hE]
      have := hinv k0
      rw [resolve, hE] at this
      exact this
    · cases hR : bGet k b.revert with
      | some ov2 =>
        have := hinv k
        rw [resolve, hR] at this
        exact this
      | none =>
        rw [hm' k hk]
        have := hinv k
        rw [resolve, hR] at this
        exact this
  | none =>
    simp only
    rw [resolve, bGet_bInsert]
    by_cases hk : k = k0
    · rw [if_pos hk]
      have := hinv k0
      rw [resolve, hE] at this
      rw [hk]
      exact this
    · rw [if_neg hk]
      cases hR : bGet k b.revert with
      | some ov2 =>
        have := hinv k
        rw [resolve, hR] at this
        exact this
      | none =>
        rw [hm' k hk]
        have := hinv k
        rw [resolve, hR] at this
        exact this

theorem stepSt_invariant {B0 : List (K × V)} {b : BlockSt K V} (op : StOp K V)
    (hr : bSorted b.revert) (hb : bSorted b.blocks)
    (hinv : ∀ k, resolve b.revert b.blocks k = bGet k B0) :
    bSorted (stepSt b op).revert ∧ bSorted (stepSt b op).blocks ∧
      ∀ k, resolve (stepSt b op).revert (stepSt b op).blocks k = bGet k B0 := by
  cases op with
  | insert k0 v =>
    rw [stepSt]
    refine ⟨bSorted_orInsert hr, bSorted_bInsert hb, ?_⟩
    exact journal_write hinv fun k hk => by rw [bGet_bInsert, if_neg hk]
  | remove k0 =>
    rw [stepSt]
    refine ⟨bSorted_orInsert hr, bSorted_bErase hb, ?_⟩
    exact journal_write hinv fun k hk => by rw [bGet_bErase hb, if_neg hk]
  | getMut k0 f =>
    rw [stepSt]
    cases hv : bGet k0 b.blocks with
    | none => exact ⟨hr, hb, hinv⟩
    | some v =>
      simp only
      refine ⟨?_, bSorted_bInsert hb, ?_⟩
      · rw [← hv]
        exact bSorted_orInsert hr
      · rw [← hv]
        exact journal_write hinv fun k hk => by rw [bGet_bInsert, if_neg hk]

theorem replaySt_invariant {ops : List (StOp K V)} {B0 : List (K × V)} {b : BlockSt K V}
    (hr : bSorted b.revert) (hb : bSorted b.blocks)
    (hinv : ∀ k, resolve b.revert b.blocks k = bGet k B0) :
    bSorted (ops.foldl stepSt b).revert ∧ bSorted (ops.foldl stepSt b).blocks ∧
      ∀ k, resolve (ops.foldl stepSt b).revert (ops.foldl stepSt b).blocks k = bGet k B0 := by
  induction ops generalizing b with
  | nil => exact ⟨hr, hb, hinv⟩
  | cons op ops ih =>
    obtain ⟨h1, h2, h3⟩ := stepSt_invariant op hr hb hinv
    simpa only [List.foldl_cons] using ih h1 h2 h3

theorem restore_replaySt {ops : List (StOp K V)} {B0 : List (K × V)} (hB : bSorted B0) :
    bRestore (replaySt ops B0).revert (replaySt ops B0).blocks = B0 := by
  have h0 : ∀ k, resolve ([] : List (K × Option V)) B0 k = bGet k B0 := resolve_nil
  have haux := @replaySt_invariant K V _ ops B0 ⟨[], B0⟩ List.Pairwise.nil hB h0
  rw [replaySt]
  obtain ⟨hr, hb, hinv⟩ := haux
  refine bSorted_ext (bSorted_bRestore hb) hB ?_
  intro k
  rw [bGet_bRestore hr hb k]
  exact hinv k

end MvStorage

namespace MvStorage

variable {K : Type} {V : Type} [LinearOrder K]

open Mv

/-- C3: single-step rollback, in both revisions.  In `lib.rs` (first two
conjuncts): after committing block `B` (opened with `Storage::block(false)`
on any well-formed state and performing any operations), opening the next
block with `revert = true` and committing it yields a state whose fresh
view agrees at every key with the committed state as it was before `B`;
opening and committing yet another revert block immediately afterwards
changes nothing at all.  In `storage.rs` (last two conjuncts): after a block
opened with `Storage::block` on base `B0` performs any `insert`/`remove`/
`get_mut` operations and commits, `Storage::block_and_revert` followed by
`commit` restores the base map to exactly `B0`, and a second consecutive
`block_and_revert` + `commit` is a no-op (the rollback log is empty). -/
theorem c3_single_step_rollback (st : StorageState K V) (ops : List (K × Option V))
    (hst : StateWF st) (ops2 : List (StOp K V)) (B0 : List (K × V)) (hB : bSorted B0) :
    (∀ k, viewGet (revertCommit (replayBlock st true ops)).latest_block
        (revertCommit (replayBlock st true ops)).blocks k =
        viewGet st.latest_block st.blocks k) ∧
      revertCommit (revertCommit (replayBlock st true ops)) =
        revertCommit (replayBlock st true ops) ∧
      (blockAndRevertCommit (replaySt ops2 B0)).blocks = B0 ∧
      blockAndRevertCommit (blockAndRevertCommit (replaySt ops2 B0)) =
        blockAndRevertCommit (replaySt ops2 B0) := by
  refine ⟨?_, rfl, restore_replaySt hB, rfl⟩
  intro k
  have h1 : revertCommit (replayBlock st true ops) =
      ⟨BlockInner.empty, applyStaging st.latest_block st.blocks⟩ := rfl
  rw [h1]
  simp only
  rw [viewGet_empty, bGet_applyStaging hst.1 hst.2]

/-- Closed witness for `c3_single_step_rollback`: the S4 scenario.  The
pre-`B` state holds `0 ↦ 0`; block `B` writes `0 ↦ 1`; after the revert
block both revisions read `0 ↦ 0` again. -/
theorem c3_single_step_rollback_witness :
    StateWF (⟨⟨[], [(0, 0)]⟩, []⟩ : StorageState Nat Nat) ∧
      bSorted [((0 : Nat), (0 : Nat))] ∧
      viewGet
          (revertCommit (replayBlock (⟨⟨[], [(0, 0)]⟩, []⟩ : StorageState Nat Nat) true
            [(0, some 1)])).latest_block
          (revertCommit (replayBlock (⟨⟨[], [(0, 0)]⟩, []⟩ : StorageState Nat Nat) true
            [(0, some 1)])).blocks 0 =
        viewGet (⟨[], [(0, 0)]⟩ : BlockInner Nat Nat) [] 0 ∧
      (blockAndRevertCommit (replaySt [StOp.insert 0 1] [((0 : Nat), (0 : Nat))])).blocks =
        [(0, 0)] :=
  have hwf : StateWF (⟨⟨[], [(0, 0)]⟩, []⟩ : StorageState Nat Nat) := by
    unfold StateWF InnerWF bSorted sSorted
    exact ⟨⟨by decide, by decide⟩, by decide⟩
  have hB : bSorted [((0 : Nat), (0 : Nat))] := by
    unfold bSorted
    decide
  ⟨hwf, hB,
   (c3_single_step_rollback _ [(0, some 1)] hwf [StOp.insert 0 1] _ hB).1 0,
   (c3_single_step_rollback (⟨⟨[], [(0, 0)]⟩, []⟩ : StorageState Nat Nat) [(0, some 1)] hwf
     [StOp.insert 0 1] _ hB).2.2.1⟩

/-- C4: a `storage.rs` `Transaction` opened on a block whose base map is
`B0` that performs any sequence of `insert`, `remove` and `get_mut`
operations and is then dropped without `apply` restores the base map to
exactly `B0` (its `Drop` impl replays the private inverse diff), so every
subsequent `get`, `iter` and `range` on the enclosing block returns exactly
what it returned before the transaction was opened; the block's own
rollback log is never touched by transaction operations. -/
theorem c4_transaction_drop_discards (ops : List (StOp K V)) (B0 : List (K × V))
    (hB : bSorted B0) :
    bRestore (replaySt ops B0).revert (replaySt ops B0).blocks = B0 ∧
      (∀ k, bGet k (bRestore (replaySt ops B0).revert (replaySt ops B0).blocks) =
        bGet k B0) ∧
      ∀ lo hi, bRange lo hi (bRestore (replaySt ops B0).revert (replaySt ops B0).blocks) =
        bRange lo hi B0 := by
  have h := @restore_replaySt K V _ ops B0 hB
  exact ⟨h, fun k => by rw [h], fun lo hi => by rw [h]⟩

/-- Closed witness for `c4_transaction_drop_discards`: a transaction that
overwrites, deletes and mutates keys of base `[(0, 0), (1, 5)]` and is
dropped leaves the block reading `[(0, 0), (1, 5)]` again. -/
theorem c4_transaction_drop_discards_witness :
    bSorted [((0 : Nat), (0 : Nat)), (1, 5)] ∧
      bRestore
          (replaySt [StOp.insert 0 1, StOp.getMut 1 (fun v => v + 10), StOp.remove 0]
            [((0 : Nat), (0 : Nat)), (1, 5)]).revert
          (replaySt [StOp.insert 0 1, StOp.getMut 1 (fun v => v + 10), StOp.remove 0]
            [((0 : Nat), (0 : Nat)), (1, 5)]).blocks =
        [(0, 0), (1, 5)] :=
  have hB : bSorted [((0 : Nat), (0 : Nat)), (1, 5)] := by
    unfold bSorted
    decide
  ⟨hB,
   (c4_transaction_drop_discards
     [StOp.insert 0 1, StOp.getMut 1 (fun v => v + 10), StOp.remove 0] _ hB).1⟩

end MvStorage

namespace Mv

variable {K : Type} {V : Type} {β : Type} [LinearOrder K]

theorem mergeBy_nil_left {r : List (K × β)} : mergeBy [] r = r := by
  cases r <;> simp [mergeBy]

theorem mergeBy_nil_right {l : List (K × β)} : mergeBy l [] = l := by
  cases l <;> simp [mergeBy]

theorem mem_mergeBy {l r : List (K × β)} :
    ∀ {x : K × β}, x ∈ mergeBy l r → x ∈ l ∨ x ∈ r := by
  induction l, r using mergeBy.induct with
  | case1 r =>
    intro x h
    rw [mergeBy_nil_left] at h
    exact Or.inr h
  | case2 l _ =>
    intro x h
    rw [mergeBy_nil_right] at h
    exact Or.inl h
  | case3 a l b r hab ih =>
    intro x h
    rw [mergeBy, if_pos hab] at h
    rcases List.mem_cons.mp h with h1 | h1
    · exact Or.inl (h1 ▸ List.mem_cons_self a l)
    · rcases ih h1 with h2 | h2
      · exact Or.inl (List.mem_cons_of_mem _ h2)
      · exact Or.inr h2
  | case4 a l b r hab ih =>
    intro x h
    rw [mergeBy, if_neg hab] at h
    rcases List.mem_cons.mp h with h1 | h1
    · exact Or.inr (h1 ▸ List.mem_cons_self b r)
    · rcases ih h1 with h2 | h2
      · exact Or.inl h2
      · exact Or.inr (List.mem_cons_of_mem _ h2)

theorem bGet_mergeBy {l r : List (K × β)} (k : K) :
    bSorted l → bSorted r →
      bGet k (mergeBy l r) =
        match bGet k l with
        | some v => some v
        | none => bGet k r := by
  induction l, r using mergeBy.induct with
  | case1 r =>
    intro _ _
    rw [mergeBy_nil_left]
    simp [bGet]
  | case2 l _ =>
    intro _ _
    rw [mergeBy_nil_right]
    cases bGet k l <;> simp [bGet]
  | case3 a l b r hab ih =>
    intro hl hr
    rw [mergeBy, if_pos hab]
    by_cases hk : k = a.1
    · simp [bGet, hk]
    · rw [bGet, if_neg hk, ih (List.Pairwise.of_cons hl) hr]
      conv_rhs => rw [bGet, if_neg hk]
  | case4 a l b r hab ih =>
    intro hl hr
    have hba : b.1 < a.1 := lt_of_not_ge hab
    rw [mergeBy, if_neg hab]
    by_cases hk : k = b.1
    · have h1 : bGet k (a :: l) = none := by
        refine bGet_eq_none ?_
        intro x hx
        rcases List.mem_cons.mp hx with h2 | h2
        · rw [h2, hk]
          exact ne_of_gt hba
        · rw [hk]
          exact ne_of_gt (hba.trans ((List.pairwise_cons.mp hl).1 x h2))
      rw [bGet, if_pos hk, h1, bGet, if_pos hk]
    · rw [bGet, if_neg hk, ih hl (List.Pairwise.of_cons hr)]
      cases bGet k (a :: l) with
      | some v => rfl
      | none => rw [bGet, if_neg hk]

theorem pairwiseLe_mergeBy {l r : List (K × β)} :
    bSorted l → bSorted r → (mergeBy l r).Pairwise (fun a b => a.1 ≤ b.1) := by
  induction l, r using mergeBy.induct with
  | case1 r =>
    intro _ hr
    rw [mergeBy_nil_left]
    exact hr.imp le_of_lt
  | case2 l _ =>
    intro hl _
    rw [mergeBy_nil_right]
    exact hl.imp le_of_lt
  | case3 a l b r hab ih =>
    intro hl hr
    rw [mergeBy, if_pos hab]
    refine List.pairwise_cons.mpr ⟨?_, ih (List.Pairwise.of_cons hl) hr⟩
    intro x hx
    rcases mem_mergeBy hx with h1 | h1
    · exact le_of_lt ((List.pairwise_cons.mp hl).1 x h1)
    · rcases List.mem_cons.mp h1 with h2 | h2
      · exact h2 ▸ hab
      · exact hab.trans (le_of_lt ((List.pairwise_cons.mp hr).1 x h2))
  | case4 a l b r hab ih =>
    intro hl hr
    have hba : b.1 < a.1 := lt_of_not_ge hab
    rw [mergeBy, if_neg hab]
    refine List.pairwise_cons.mpr ⟨?_, ih hl (List.Pairwise.of_cons hr)⟩
    intro x hx
    rcases mem_mergeBy hx with h1 | h1
    · rcases List.mem_cons.mp h1 with h2 | h2
      · exact h2 ▸ le_of_lt hba
      · exact le_of_lt (hba.trans ((List.pairwise_cons.mp hl).1 x h2))
    · exact le_of_lt ((List.pairwise_cons.mp hr).1 x h1)

theorem mem_dedupKeys {l : List (K × β)} : ∀ {x : K × β}, x ∈ dedupKeys l → x ∈ l := by
  induction l using dedupKeys.induct with
  | case1 =>
    intro x h
    rw [dedupKeys] at h
    exact h
  | case2 a =>
    intro x h
    rw [dedupKeys] at h
    exact h
  | case3 a b rest hab ih =>
    intro x h
    rw [dedupKeys, if_pos hab] at h
    rcases List.mem_cons.mp (ih h) with h1 | h1
    · exact h1 ▸ List.mem_cons_self _ _
    · exact List.mem_cons_of_mem _ (List.mem_cons_of_mem _ h1)
  | case4 a b rest hab ih =>
    intro x h
    rw [dedupKeys, if_neg hab] at h
    rcases List.mem_cons.mp h with h1 | h1
    · exact h1 ▸ List.mem_cons_self _ _
    · exact List.mem_cons_of_mem _ (ih h1)

theorem bGet_dedupKeys {l : List (K × β)} (k : K) : bGet k (dedupKeys l) = bGet k l := by
  induction l using dedupKeys.induct with
  | case1 => rw [dedupKeys]
  | case2 a => rw [dedupKeys]
  | case3 a b rest hab ih =>
    rw [dedupKeys, if_pos hab, ih]
    by_cases hk : k = a.1
    · conv_rhs => rw [bGet, if_pos hk]
      rw [bGet, if_pos hk]
    · have hkb : ¬ k = b.1 := fun hh => hk (hh.trans hab.symm)
      conv_rhs => rw [bGet, if_neg hk, bGet, if_neg hkb]
      rw [bGet, if_neg hk]
  | case4 a b rest hab ih =>
    rw [dedupKeys, if_neg hab]
    by_cases hk : k = a.1
    · conv_rhs => rw [bGet, if_pos hk]
      rw [bGet, if_pos hk]
    · conv_rhs => rw [bGet, if_neg hk]
      rw [bGet, if_neg hk]
      exact ih

theorem bSorted_dedupKeys {l : List (K × β)}
    (h : l.Pairwise (fun a b => a.1 ≤ b.1)) : bSorted (dedupKeys l) := by
  induction l using dedupKeys.induct with
  | case1 =>
    rw [dedupKeys]
    exact List.Pairwise.nil
  | case2 a =>
    rw [dedupKeys]
    exact List.pairwise_singleton _ _
  | case3 a b rest hab ih =>
    rw [dedupKeys, if_pos hab]
    refine ih (List.pairwise_cons.mpr ⟨?_, ?_⟩)
    · exact fun x hx => (List.pairwise_cons.mp h).1 x (List.mem_cons_of_mem _ hx)
    · exact List.Pairwise.of_cons (List.Pairwise.of_cons h)
  | case4 a b rest hab ih =>
    rw [dedupKeys, if_neg hab]
    have hle := List.pairwise_cons.mp h
    have hablt : a.1 < b.1 :=
      lt_of_le_of_ne (hle.1 b (List.mem_cons_self b rest)) hab
    refine List.pairwise_cons.mpr ⟨?_, ih (List.Pairwise.of_cons h)⟩
    intro x hx
    rcases List.mem_cons.mp (mem_dedupKeys hx) with h1 | h1
    · exact h1 ▸ hablt
    · exact lt_of_lt_of_le hablt ((List.pairwise_cons.mp (List.Pairwise.of_cons h)).1 x h1)

end Mv

namespace Mv

variable {K : Type} {V : Type} {β : Type} [LinearOrder K]

theorem sMem_iff {k : K} {s : List K} : sMem k s = true ↔ k ∈ s := by
  induction s with
  | nil => simp [sMem]
  | cons x rest ih =>
    by_cases hk : k = x
    · simp [sMem, hk]
    · simp [sMem, hk, ih]

theorem sMem_append {k : K} {s t : List K} :
    sMem k (s ++ t) = (sMem k s || sMem k t) := by
  induction s with
  | nil => simp [sMem]
  | cons x rest ih =>
    by_cases hk : k = x
    · simp [sMem, hk]
    · simp [sMem, hk, ih]

theorem dropWhile_head_false {p : K → Bool} {s : List K} {x : K} {xs : List K}
    (h : s.dropWhile p = x :: xs) : p x = false := by
  induction s with
  | nil => simp at h
  | cons y rest ih =>
    rw [List.dropWhile_cons] at h
    by_cases hp : p y = true
    · rw [if_pos hp] at h
      exact ih h
    · rw [if_neg hp] at h
      injection h with h1 _
      cases hpb : p y with
      | false =>
        rw [← h1]
        exact hpb
      | true => exact absurd hpb hp

theorem filterRem_nil_rem {l : List (K × β)} : filterRem ([] : List K) l = l := by
  induction l with
  | nil => rw [filterRem]
  | cons e rest ih =>
    rw [filterRem]
    simp only [List.dropWhile_nil]
    rw [ih]

theorem sMem_dropWhile_lt {c k : K} (hk : ¬ k < c) (rem : List K) :
    sMem k (rem.dropWhile (fun r => r < c)) = sMem k rem := by
  induction rem with
  | nil => rfl
  | cons y rest ih =>
    rw [List.dropWhile_cons]
    by_cases hy : y < c
    · rw [if_pos (decide_eq_true hy), ih, sMem,
        if_neg (fun hh : k = y => hk (hh ▸ hy))]
    · rw [if_neg (fun hh => hy (of_decide_eq_true hh))]

theorem filterRem_eq_filter {rem : List K} {l : List (K × β)} (hrem : sSorted rem)
    (hl : bSorted l) :
    filterRem rem l = l.filter (fun e => !(sMem e.1 rem)) := by
  induction l generalizing rem with
  | nil => rw [filterRem, List.filter_nil]
  | cons e rest ih =>
    rw [bSorted, List.pairwise_cons] at hl
    rw [filterRem]
    cases hd : rem.dropWhile (fun r => r < e.1) with
    | nil =>
      simp only
      have hpe : sMem e.1 rem = false := by
        rw [← sMem_dropWhile_lt (lt_irrefl e.1) rem, hd]
        rfl
      rw [filterRem_nil_rem, List.filter_cons_of_pos (by simp [hpe])]
      congr 1
      refine (List.filter_eq_self.mpr ?_).symm
      intro x hx
      have hxm : sMem x.1 rem = false := by
        rw [← sMem_dropWhile_lt (not_lt_of_gt (hl.1 x hx)) rem, hd]
        rfl
      simp [hxm]
    | cons r rem3 =>
      simp only
      have hsub : sSorted (r :: rem3) :=
        List.Pairwise.sublist (hd ▸ List.dropWhile_sublist _) hrem
      have hre : ¬ r < e.1 := by
        have h := dropWhile_head_false hd
        simpa using h
      have hMem : ∀ k1 : K, ¬ k1 < e.1 → sMem k1 rem = sMem k1 (r :: rem3) := by
        intro k1 h1
        rw [← sMem_dropWhile_lt h1 rem, hd]
      by_cases hre2 : r = e.1
      · rw [if_pos hre2]
        have hmem : sMem e.1 rem = true := by
          rw [hMem e.1 (lt_irrefl e.1), sMem, if_pos hre2.symm]
        rw [List.filter_cons_of_neg (by simp [hmem])]
        rw [ih (List.Pairwise.of_cons hsub) hl.2]
        refine List.filter_congr ?_
        intro x hx
        have hx1 : e.1 < x.1 := hl.1 x hx
        have hsm : sMem x.1 rem = sMem x.1 rem3 := by
          rw [hMem x.1 (not_lt_of_gt hx1), sMem,
            if_neg (by rw [hre2]; exact ne_of_gt hx1)]
        rw [hsm]
      · rw [if_neg hre2]
        have hgt : e.1 < r :=
          lt_of_le_of_ne (le_of_not_lt hre) fun hh => hre2 hh.symm
        have hmem : sMem e.1 rem = false := by
          rw [hMem e.1 (lt_irrefl e.1), sMem, if_neg (ne_of_lt hgt)]
          exact sMem_eq_false fun y hy =>
            ne_of_gt (hgt.trans ((List.pairwise_cons.mp hsub).1 y hy))
        rw [List.filter_cons_of_pos (by simp [hmem])]
        rw [ih hsub hl.2]
        congr 1
        refine List.filter_congr ?_
        intro x hx
        rw [hMem x.1 (not_lt_of_gt (hl.1 x hx))]

end Mv

namespace Mv

variable {K : Type} {V : Type} {β : Type} [LinearOrder K]

theorem bGet_filterKey {p : K → Bool} {l : List (K × β)} (k : K) :
    bGet k (l.filter (fun e => p e.1)) = if p k then bGet k l else none := by
  induction l with
  | nil => simp [bGet]
  | cons e rest ih =>
    by_cases hp : p e.1 = true
    · rw [List.filter_cons_of_pos (by simp [hp])]
      by_cases hk : k = e.1
      · have hpk : p k = true := by rw [hk]; exact hp
        rw [bGet, if_pos hk, if_pos hpk]
        conv_rhs => rw [bGet, if_pos hk]
      · rw [bGet, if_neg hk, ih]
        by_cases hpk : p k = true
        · rw [if_pos hpk, if_pos hpk]
          conv_rhs => rw [bGet, if_neg hk]
        · rw [if_neg hpk, if_neg hpk]
    · rw [List.filter_cons_of_neg (by simp [hp]), ih]
      by_cases hk : k = e.1
      · have hpk : ¬ p k = true := by rw [hk]; exact hp
        rw [if_neg hpk, if_neg hpk]
      · by_cases hpk : p k = true
        · rw [if_pos hpk, if_pos hpk]
          conv_rhs => rw [bGet, if_neg hk]
        · rw [if_neg hpk, if_neg hpk]

theorem bGet_filter_not_sMem {rem : List K} {l : List (K × β)} (k : K) :
    bGet k (l.filter (fun e => !(sMem e.1 rem))) =
      if sMem k rem = true then none else bGet k l := by
  induction l with
  | nil => simp [bGet]
  | cons e rest ih =>
    by_cases hp : sMem e.1 rem = true
    · rw [List.filter_cons_of_neg (by simp [hp]), ih]
      by_cases hk : k = e.1
      · have hm : sMem k rem = true := by rw [hk]; exact hp
        rw [if_pos hm, if_pos hm]
      · by_cases hm : sMem k rem = true
        · rw [if_pos hm, if_pos hm]
        · rw [if_neg hm, if_neg hm]
          conv_rhs => rw [bGet, if_neg hk]
    · rw [List.filter_cons_of_pos (by simp [hp])]
      by_cases hk : k = e.1
      · have hm : ¬ sMem k rem = true := by rw [hk]; exact hp
        rw [bGet, if_pos hk, if_neg hm]
        conv_rhs => rw [bGet, if_pos hk]
      · rw [bGet, if_neg hk, ih]
        by_cases hm : sMem k rem = true
        · rw [if_pos hm, if_pos hm]
        · rw [if_neg hm, if_neg hm]
          conv_rhs => rw [bGet, if_neg hk]

theorem bGet_ne_none_of_mem {k : K} {v : β} {l : List (K × β)} (h : (k, v) ∈ l) :
    bGet k l ≠ none := by
  induction l with
  | nil => simp at h
  | cons e rest ih =>
    rcases List.mem_cons.mp h with h1 | h1
    · rw [bGet, if_pos (congrArg Prod.fst h1)]
      simp
    · by_cases hk : k = e.1
      · rw [bGet, if_pos hk]
        simp
      · rw [bGet, if_neg hk]
        exact ih h1

theorem mergeEntries_char {inner : BlockInner K V} {blocks : List (K × V)}
    (hi : InnerWF inner) (hb : bSorted blocks) :
    bSorted (mergeEntries inner blocks) ∧
      ∀ k, bGet k (mergeEntries inner blocks) = viewGet inner blocks k := by
  have hC : filterRem inner.removed_keys blocks =
      blocks.filter (fun e => !(sMem e.1 inner.removed_keys)) :=
    filterRem_eq_filter hi.1 hb
  have hCs : bSorted (blocks.filter (fun e => !(sMem e.1 inner.removed_keys))) :=
    hb.filter _
  constructor
  · rw [mergeEntries, hC]
    exact bSorted_dedupKeys (pairwiseLe_mergeBy hi.2 hCs)
  · intro k
    rw [mergeEntries, hC, bGet_dedupKeys, bGet_mergeBy k hi.2 hCs, viewGet]
    cases bGet k inner.new_or_updated_keys with
    | some v => rfl
    | none =>
      simp only
      rw [bGet_filter_not_sMem]

theorem mergeEntries_props {inner : BlockInner K V} {blocks : List (K × V)}
    (hi : InnerWF inner) (hb : bSorted blocks) :
    bSorted (mergeEntries inner blocks) ∧
      (mergeEntries inner blocks).Pairwise (fun a b => a.1 ≠ b.1) ∧
      (∀ k v, bGet k inner.new_or_updated_keys = some v →
        bGet k (mergeEntries inner blocks) = some v) ∧
      ∀ k, sMem k inner.removed_keys = true → bGet k inner.new_or_updated_keys = none →
        ∀ v, (k, v) ∉ mergeEntries inner blocks := by
  obtain ⟨hs, hg⟩ := mergeEntries_char hi hb
  refine ⟨hs, hs.imp ne_of_lt, ?_, ?_⟩
  · intro k v hov
    rw [hg k, viewGet, hov]
  · intro k hrem hov v hmem
    have hnone : bGet k (mergeEntries inner blocks) = none := by
      rw [hg k, viewGet, hov]
      simp [hrem]
    exact bGet_ne_none_of_mem hmem hnone

/-- C5: for every well-formed `View`, `Block`, or `Transaction` state of the
`lib.rs` revision, `iter()` (the `merge_by`/`dedup_by` pipeline
`mergeEntries`, identical in `View::iter` and `Block::iter`, and its
three-layer composition `txnEntries` for `Transaction::iter`) yields
strictly ascending keys, hence each key at most once; a key present in the
staging overrides is emitted with its override value, never the base value;
and no key that is tombstoned without an override appears at all. -/
theorem c5_iter_sorted_unique_override_tombstone (inner : BlockInner K V)
    (blocks : List (K × V)) (t : TxnState K V) (hi : InnerWF inner)
    (hb : bSorted blocks) (ht : TxnWF t) :
    (bSorted (mergeEntries inner blocks) ∧
      (mergeEntries inner blocks).Pairwise (fun a b => a.1 ≠ b.1) ∧
      (∀ k v, bGet k inner.new_or_updated_keys = some v →
        bGet k (mergeEntries inner blocks) = some v) ∧
      ∀ k, sMem k inner.removed_keys = true → bGet k inner.new_or_updated_keys = none →
        ∀ v, (k, v) ∉ mergeEntries inner blocks) ∧
    (bSorted (txnEntries t) ∧
      (txnEntries t).Pairwise (fun a b => a.1 ≠ b.1) ∧
      (∀ k v, bGet k t.latest_block.new_or_updated_keys = some v →
        bGet k (txnEntries t) = some v) ∧
      ∀ k, sMem k t.latest_block.removed_keys = true →
        bGet k t.latest_block.new_or_updated_keys = none →
        ∀ v, (k, v) ∉ txnEntries t) :=
  ⟨mergeEntries_props hi hb,
   mergeEntries_props ht.1 (mergeEntries_char ht.2.1 ht.2.2).1⟩

/-- Closed witness for `c5_iter_sorted_unique_override_tombstone` at a
concrete view state and transaction state. -/
theorem c5_iter_sorted_unique_override_tombstone_witness :
    InnerWF (⟨[2], [(1, 10)]⟩ : BlockInner Nat Nat) ∧
      bSorted [((1 : Nat), (5 : Nat)), (2, 6), (3, 7)] ∧
      TxnWF (⟨⟨[3], [(0, 1)]⟩, ⟨[2], [(1, 10)]⟩, [(1, 5), (2, 6), (3, 7)]⟩ :
        TxnState Nat Nat) ∧
      bSorted (mergeEntries (⟨[2], [(1, 10)]⟩ : BlockInner Nat Nat)
        [(1, 5), (2, 6), (3, 7)]) ∧
      bSorted (txnEntries (⟨⟨[3], [(0, 1)]⟩, ⟨[2], [(1, 10)]⟩,
        [(1, 5), (2, 6), (3, 7)]⟩ : TxnState Nat Nat)) :=
  have h1 : InnerWF (⟨[2], [(1, 10)]⟩ : BlockInner Nat Nat) := by
    unfold InnerWF sSorted bSorted
    exact ⟨by decide, by decide⟩
  have h2 : bSorted [((1 : Nat), (5 : Nat)), (2, 6), (3, 7)] := by
    unfold bSorted
    decide
  have h3 : TxnWF (⟨⟨[3], [(0, 1)]⟩, ⟨[2], [(1, 10)]⟩, [(1, 5), (2, 6), (3, 7)]⟩ :
      TxnState Nat Nat) := by
    unfold TxnWF StateWF InnerWF sSorted bSorted
    exact ⟨⟨by decide, by decide⟩, ⟨by decide, by decide⟩, by decide⟩
  ⟨h1, h2, h3,
   (c5_iter_sorted_unique_override_tombstone _ _ _ h1 h2 h3).1.1,
   (c5_iter_sorted_unique_override_tombstone _ _ _ h1 h2 h3).2.1⟩

end Mv

namespace Mv

variable {K : Type} {V : Type} {β : Type} [LinearOrder K]

theorem range_filter_core {inner : BlockInner K V} {blocks : List (K × V)}
    (hi : InnerWF inner) (hb : bSorted blocks) (p : K → Bool) :
    dedupKeys (mergeBy (inner.new_or_updated_keys.filter (fun e => p e.1))
        (filterRem inner.removed_keys (blocks.filter (fun e => p e.1)))) =
      (mergeEntries inner blocks).filter (fun e => p e.1) := by
  have hOf : bSorted (inner.new_or_updated_keys.filter (fun e => p e.1)) := hi.2.filter _
  have hBf : bSorted (blocks.filter (fun e => p e.1)) := hb.filter _
  have hC2 : filterRem inner.removed_keys (blocks.filter (fun e => p e.1)) =
      (blocks.filter (fun e => p e.1)).filter
        (fun e => !(sMem e.1 inner.removed_keys)) :=
    filterRem_eq_filter hi.1 hBf
  have hCs : bSorted ((blocks.filter (fun e => p e.1)).filter
      (fun e => !(sMem e.1 inner.removed_keys))) := hBf.filter _
  obtain ⟨hms, hmg⟩ := mergeEntries_char hi hb
  refine bSorted_ext ?_ (hms.filter _) ?_
  · rw [hC2]
    exact bSorted_dedupKeys (pairwiseLe_mergeBy hOf hCs)
  · intro k
    rw [hC2, bGet_dedupKeys, bGet_mergeBy k hOf hCs, bGet_filter_not_sMem,
      bGet_filterKey, bGet_filterKey, bGet_filterKey, hmg k]
    by_cases hp : p k = true
    · rw [if_pos hp, if_pos hp, if_pos hp, viewGet]
      cases bGet k inner.new_or_updated_keys <;> rfl
    · rw [if_neg hp, if_neg hp, if_neg hp]
      simp

theorem rangeEntries_eq_filter {inner : BlockInner K V} {blocks : List (K × V)}
    (hi : InnerWF inner) (hb : bSorted blocks) (lo hi2 : RBound K) :
    rangeEntries inner blocks lo hi2 =
      (mergeEntries inner blocks).filter (fun e => inBounds lo hi2 e.1) :=
  range_filter_core hi hb (inBounds lo hi2)

/-- C7: for every well-formed `View`, `Block`, or `Transaction` state of the
`lib.rs` revision and every pair of `Included`/`Excluded`/`Unbounded`
bounds, `range((lo, hi))` yields exactly the subsequence of `iter()` whose
keys satisfy both bounds — same keys, same order, same values.  The first
conjunct covers `View::range` / `Block::range` (`rangeEntries` versus
`mergeEntries`), the second `Transaction::range` (`txnRangeEntries` versus
`txnEntries`). -/
theorem c7_range_matches_iter_filter (inner : BlockInner K V) (blocks : List (K × V))
    (t : TxnState K V) (hi : InnerWF inner) (hb : bSorted blocks) (ht : TxnWF t)
    (lo hi2 : RBound K) :
    rangeEntries inner blocks lo hi2 =
      (mergeEntries inner blocks).filter (fun e => inBounds lo hi2 e.1) ∧
      txnRangeEntries t lo hi2 = (txnEntries t).filter (fun e => inBounds lo hi2 e.1) := by
  refine ⟨rangeEntries_eq_filter hi hb lo hi2, ?_⟩
  rw [txnRangeEntries, rangeEntries_eq_filter ht.2.1 ht.2.2 lo hi2]
  exact range_filter_core ht.1 (mergeEntries_char ht.2.1 ht.2.2).1 (inBounds lo hi2)

/-- Closed witness for `c7_range_matches_iter_filter` at a concrete state
and concrete bounds, mirroring scenario S2. -/
theorem c7_range_matches_iter_filter_witness :
    InnerWF (⟨[2], [(1, 10)]⟩ : BlockInner Nat Nat) ∧
      bSorted [((1 : Nat), (5 : Nat)), (2, 6), (3, 7)] ∧
      TxnWF (⟨⟨[3], [(0, 1)]⟩, ⟨[2], [(1, 10)]⟩, [(1, 5), (2, 6), (3, 7)]⟩ :
        TxnState Nat Nat) ∧
      rangeEntries (⟨[2], [(1, 10)]⟩ : BlockInner Nat Nat) [(1, 5), (2, 6), (3, 7)]
          (RBound.included 1) (RBound.excluded 3) =
        (mergeEntries (⟨[2], [(1, 10)]⟩ : BlockInner Nat Nat)
          [(1, 5), (2, 6), (3, 7)]).filter
          (fun e => inBounds (RBound.included 1) (RBound.excluded 3) e.1) :=
  have h1 : InnerWF (⟨[2], [(1, 10)]⟩ : BlockInner Nat Nat) := by
    unfold InnerWF sSorted bSorted
    exact ⟨by decide, by decide⟩
  have h2 : bSorted [((1 : Nat), (5 : Nat)), (2, 6), (3, 7)] := by
    unfold bSorted
    decide
  have h3 : TxnWF (⟨⟨[3], [(0, 1)]⟩, ⟨[2], [(1, 10)]⟩, [(1, 5), (2, 6), (3, 7)]⟩ :
      TxnState Nat Nat) := by
    unfold TxnWF StateWF InnerWF sSorted bSorted
    exact ⟨⟨by decide, by decide⟩, ⟨by decide, by decide⟩, by decide⟩
  ⟨h1, h2, h3,
   (c7_range_matches_iter_filter _ _
     (⟨⟨[3], [(0, 1)]⟩, ⟨[2], [(1, 10)]⟩, [(1, 5), (2, 6), (3, 7)]⟩ : TxnState Nat Nat)
     h1 h2 h3 (RBound.included 1) (RBound.excluded 3)).1⟩

end Mv

namespace Mv

variable {K : Type} {V : Type} {β : Type} [LinearOrder K]

/-- C6 counterexample: invariant I1 is not preserved by `Transaction::apply`
in `lib.rs`.  Starting from an empty block, `Block::remove(0)` tombstones
key `0`; a transaction then does `Transaction::insert(0, 5)` and `apply`.
`apply` extends the block tombstones with the transaction tombstones (which
no longer contain `0`) without clearing the block's own tombstone for `0`,
and extends the overrides with `0 ↦ 5` — leaving key `0` in both the
tombstone set and the override map of the block's staging buffer. -/
theorem c6_apply_puts_key_in_both_components :
    sMem 0 (txnApply ((BlockInner.empty : BlockInner Nat Nat).remove 0)
        ((BlockInner.empty : BlockInner Nat Nat).insert 0 5)).removed_keys = true ∧
      bGet 0 (txnApply ((BlockInner.empty : BlockInner Nat Nat).remove 0)
        ((BlockInner.empty : BlockInner Nat Nat).insert 0 5)).new_or_updated_keys =
        some 5 := by
  constructor <;> rfl

/-- C6 amended: a key appears in at most one of the two staging-buffer
components in every state reachable through `Block::insert`, `Block::remove`,
`Transaction::insert` and `Transaction::remove` (in `lib.rs` the `Block` and
`Transaction` write methods are the same code over a `BlockInner`, embedded
here as `BlockInner.insert` / `BlockInner.remove`): each of the two
operations preserves the disjointness invariant.  `Transaction::apply` does
not preserve it (see the counterexample); lookup precedence makes the
overlap unobservable. -/
theorem c6_amended_insert_remove_preserve_disjointness (inner : BlockInner K V)
    (hi : InnerWF inner)
    (hdisj : ∀ k, sMem k inner.removed_keys = true →
      bGet k inner.new_or_updated_keys = none)
    (k0 : K) (v : V) :
    (∀ k, sMem k (inner.insert k0 v).removed_keys = true →
      bGet k (inner.insert k0 v).new_or_updated_keys = none) ∧
      ∀ k, sMem k (inner.remove k0).removed_keys = true →
        bGet k (inner.remove k0).new_or_updated_keys = none := by
  constructor
  · intro k hm
    rw [BlockInner.insert] at hm ⊢
    simp only at hm ⊢
    rw [sMem_sErase hi.1] at hm
    by_cases hk : k = k0
    · rw [if_pos hk] at hm
      exact absurd hm (by simp)
    · rw [if_neg hk] at hm
      rw [bGet_bInsert, if_neg hk]
      exact hdisj k hm
  · intro k hm
    rw [BlockInner.remove] at hm ⊢
    simp only at hm ⊢
    rw [bGet_bErase hi.2]
    by_cases hk : k = k0
    · rw [if_pos hk]
    · rw [if_neg hk]
      rw [sMem_sInsert, if_neg hk] at hm
      exact hdisj k hm

/-- Closed witness for `c6_amended_insert_remove_preserve_disjointness` at a
concrete disjoint staging buffer. -/
theorem c6_amended_insert_remove_preserve_disjointness_witness :
    InnerWF (⟨[1], [(0, 7)]⟩ : BlockInner Nat Nat) ∧
      (∀ k, sMem k ((⟨[1], [(0, 7)]⟩ : BlockInner Nat Nat)).removed_keys = true →
        bGet k ((⟨[1], [(0, 7)]⟩ : BlockInner Nat Nat)).new_or_updated_keys = none) ∧
      ∀ k, sMem k ((⟨[1], [(0, 7)]⟩ : BlockInner Nat Nat).insert 2 9).removed_keys = true →
        bGet k ((⟨[1], [(0, 7)]⟩ : BlockInner Nat Nat).insert 2 9).new_or_updated_keys =
          none :=
  have h1 : InnerWF (⟨[1], [(0, 7)]⟩ : BlockInner Nat Nat) := by
    unfold InnerWF sSorted bSorted
    exact ⟨by decide, by decide⟩
  have h2 : ∀ k, sMem k ((⟨[1], [(0, 7)]⟩ : BlockInner Nat Nat)).removed_keys = true →
      bGet k ((⟨[1], [(0, 7)]⟩ : BlockInner Nat Nat)).new_or_updated_keys = none := by
    intro k hk
    simp only [sMem] at hk
    by_cases h : k = 1
    · subst h
      rfl
    · rw [if_neg h] at hk
      exact absurd hk (by simp [sMem])
  ⟨h1, h2,
   (c6_amended_insert_remove_preserve_disjointness _ h1 h2 2 9).1⟩

end Mv

namespace Mv

variable {K : Type} {V : Type} {β : Type} [LinearOrder K]

theorem readView_histStep {h : StorageHist K V} {v : ViewHandle}
    {sp : Bool × List (K × Option V)} (hv1 : v.latest_idx < h.latest_gens.length)
    (hv2 : v.blocks_idx < h.blocks_gens.length) (k : K) :
    readView (histStep h sp) v k = readView h v k := by
  have e1 : (histStep h sp).latest_gens[v.latest_idx]? = h.latest_gens[v.latest_idx]? :=
    List.getElem?_append_left hv1
  have e2 : (histStep h sp).blocks_gens[v.blocks_idx]? = h.blocks_gens[v.blocks_idx]? :=
    List.getElem?_append_left hv2
  rw [readView, readView, e1, e2]

theorem readView_histSteps {steps : List (Bool × List (K × Option V))}
    {h : StorageHist K V} {v : ViewHandle}
    (hv1 : v.latest_idx < h.latest_gens.length)
    (hv2 : v.blocks_idx < h.blocks_gens.length) (k : K) :
    readView (steps.foldl histStep h) v k = readView h v k := by
  induction steps generalizing h with
  | nil => rfl
  | cons sp steps ih =>
    rw [List.foldl_cons]
    have hl1 : v.latest_idx < (histStep h sp).latest_gens.length := by
      rw [histStep]
      simp only [List.length_append, List.length_cons, List.length_nil]
      exact Nat.lt_succ_of_lt hv1
    have hl2 : v.blocks_idx < (histStep h sp).blocks_gens.length := by
      rw [histStep]
      simp only [List.length_append, List.length_cons, List.length_nil]
      exact Nat.lt_succ_of_lt hv2
    rw [ih hl1 hl2, readView_histStep hv1 hv2]

/-- C2: persistent snapshots.  `Storage::view` in `lib.rs` captures read
handles that pin the current generations of the staging-buffer `EbrCell`
and of the `BptreeMap` base; every subsequently committed block — whether
opened with `revert = false` or `revert = true` — only publishes new
generations, so `View::get` through the old handles returns exactly the
value the key had when the view was taken, no matter how many blocks commit
afterwards. -/
theorem c2_persistent_snapshots (h : StorageHist K V)
    (steps : List (Bool × List (K × Option V))) (k : K)
    (h1 : h.latest_gens ≠ []) (h2 : h.blocks_gens ≠ []) :
    readView (steps.foldl histStep h) (takeView h) k = readView h (takeView h) k := by
  refine readView_histSteps ?_ ?_ k
  · exact Nat.sub_lt (List.length_pos.mpr h1) Nat.one_pos
  · exact Nat.sub_lt (List.length_pos.mpr h2) Nat.one_pos

/-- Closed witness for `c2_persistent_snapshots`: a view taken on a
one-generation history still reads its captured snapshot after two more
committed blocks (one normal, one revert). -/
theorem c2_persistent_snapshots_witness :
    (⟨[⟨[], [(0, 0)]⟩], [[]]⟩ : StorageHist Nat Nat).latest_gens ≠ [] ∧
      readView
          ([((false : Bool), [((0 : Nat), some 1)]), (true, [])].foldl histStep
            (⟨[⟨[], [(0, 0)]⟩], [[]]⟩ : StorageHist Nat Nat))
          (takeView (⟨[⟨[], [(0, 0)]⟩], [[]]⟩ : StorageHist Nat Nat)) 0 =
        readView (⟨[⟨[], [(0, 0)]⟩], [[]]⟩ : StorageHist Nat Nat)
          (takeView (⟨[⟨[], [(0, 0)]⟩], [[]]⟩ : StorageHist Nat Nat)) 0 :=
  ⟨List.cons_ne_nil _ _,
   c2_persistent_snapshots _ _ 0 (List.cons_ne_nil _ _) (List.cons_ne_nil _ _)⟩

end Mv

namespace MvCell

variable {V : Type}

theorem mutStep_inv {v0 : V} {s : CellSt V}
    (hs : (s.1 = none ∧ s.2 = v0) ∨ s.1 = some v0) (f : V → V) :
    ((mutStep s f).1 = none ∧ (mutStep s f).2 = v0) ∨ (mutStep s f).1 = some v0 := by
  rcases hs with ⟨h1, h2⟩ | h1
  · right
    rw [mutStep, h1, h2]
  · right
    rw [mutStep, h1]

theorem foldl_mutStep_inv {v0 : V} {fs : List (V → V)} {s : CellSt V}
    (hs : (s.1 = none ∧ s.2 = v0) ∨ s.1 = some v0) :
    ((fs.foldl mutStep s).1 = none ∧ (fs.foldl mutStep s).2 = v0) ∨
      (fs.foldl mutStep s).1 = some v0 := by
  induction fs generalizing s with
  | nil => exact hs
  | cons f fs ih =>
    rw [List.foldl_cons]
    exact ih (mutStep_inv hs f)

theorem cellStep_inv {v0 : V} {s : CellSt V}
    (hs : (s.1 = none ∧ s.2 = v0) ∨ s.1 = some v0) (op : CellOp V) :
    ((cellStep s op).1 = none ∧ (cellStep s op).2 = v0) ∨ (cellStep s op).1 = some v0 := by
  cases op with
  | getMut f => exact mutStep_inv hs f
  | txn fs applied =>
    have ht := @foldl_mutStep_inv V s.2 fs ((none : Option V), s.2) (Or.inl ⟨rfl, rfl⟩)
    rw [cellStep]
    cases applied with
    | true =>
      rw [if_pos rfl]
      cases hT : (fs.foldl mutStep ((none : Option V), s.2)).1 with
      | none =>
        simp only
        rcases hs with ⟨h1, h2⟩ | h1
        · rcases ht with ⟨_, ht2⟩ | ht1
          · exact Or.inl ⟨h1, h2 ▸ ht2⟩
          · exact absurd (hT ▸ ht1) (by simp)
        · exact Or.inr h1
      | some p =>
        simp only
        have hp : p = s.2 := by
          rcases ht with ⟨ht1, _⟩ | ht1
          · rw [hT] at ht1
            exact absurd ht1 (by simp)
          · rw [hT] at ht1
            exact Option.some_inj.mp ht1
        rcases hs with ⟨h1, h2⟩ | h1
        · rw [h1]
          exact Or.inr (by rw [hp, h2])
        · rw [h1]
          exact Or.inr rfl
    | false =>
      rw [if_neg (by simp)]
      rcases hs with ⟨h1, h2⟩ | h1
      · cases hT : (fs.foldl mutStep ((none : Option V), s.2)).1 with
        | none =>
          rcases ht with ⟨_, ht2⟩ | ht1
          · exact Or.inl ⟨h1, h2 ▸ ht2⟩
          · exact absurd (hT ▸ ht1) (by simp)
        | some p =>
          have hp : p = s.2 := by
            rcases ht with ⟨ht1, _⟩ | ht1
            · rw [hT] at ht1
              exact absurd ht1 (by simp)
            · rw [hT] at ht1
              exact Option.some_inj.mp ht1
          exact Or.inl ⟨h1, by rw [hp, h2]⟩
      · exact Or.inr h1

theorem cellReplay_inv (v0 : V) (ops : List (CellOp V)) :
    ((cellReplay v0 ops).1 = none ∧ (cellReplay v0 ops).2 = v0) ∨
      (cellReplay v0 ops).1 = some v0 := by
  rw [cellReplay]
  have : ∀ (l : List (CellOp V)) (s : CellSt V),
      ((s.1 = none ∧ s.2 = v0) ∨ s.1 = some v0) →
      ((l.foldl cellStep s).1 = none ∧ (l.foldl cellStep s).2 = v0) ∨
        (l.foldl cellStep s).1 = some v0 := by
    intro l
    induction l with
    | nil => exact fun s hs => hs
    | cons op l ih =>
      intro s hs
      rw [List.foldl_cons]
      exact ih _ (cellStep_inv hs op)
  exact this ops (none, v0) (Or.inl ⟨rfl, rfl⟩)

theorem cellStep_keeps_rollback {s : CellSt V} {x : V} (op : CellOp V)
    (h : s.1 = some x) : (cellStep s op).1 = some x := by
  cases op with
  | getMut f => rw [cellStep, mutStep, h]
  | txn fs applied =>
    rw [cellStep]
    cases applied with
    | true =>
      rw [if_pos rfl]
      cases (fs.foldl mutStep ((none : Option V), s.2)).1 with
      | none => exact h
      | some p =>
        simp only
        rw [h]
    | false =>
      rw [if_neg (by simp)]
      exact h

/-- C8: for the scalar `Cell`, within any block opened by `Cell::block`
(which clears the rollback slot) on a cell holding `v0`, the first mutating
access — a `Block::get_mut`, or the first `Transaction::get_mut` of a
transaction that is later applied — copies `v0` into the rollback slot, and
no later access ever overwrites that copy (fourth conjunct); consequently,
whatever sequence of mutations and transactions the block performs, after
it commits, opening a revert block with `Cell::block_and_revert` and
committing it restores the cell, for any fresh view, to exactly `v0` (third
conjunct; the first two state that the rollback slot is either untouched
with the value still `v0`, or holds `v0`). -/
theorem c8_cell_first_write_rollback (v0 : V) (ops : List (CellOp V)) :
    ((cellReplay v0 ops).1 = none ∨ (cellReplay v0 ops).1 = some v0) ∧
      ((cellReplay v0 ops).1 = none → (cellReplay v0 ops).2 = v0) ∧
      revertValue (cellReplay v0 ops) = v0 ∧
      ∀ (s : CellSt V) (op : CellOp V) (x : V), s.1 = some x →
        (cellStep s op).1 = some x := by
  have hinv := cellReplay_inv v0 ops
  refine ⟨?_, ?_, ?_, fun s op x h => cellStep_keeps_rollback op h⟩
  · rcases hinv with ⟨h1, _⟩ | h1
    · exact Or.inl h1
    · exact Or.inr h1
  · intro h0
    rcases hinv with ⟨_, h2⟩ | h1
    · exact h2
    · rw [h0] at h1
      exact absurd h1 (by simp)
  · rw [revertValue]
    rcases hinv with ⟨h1, h2⟩ | h1
    · rw [h1]
      exact h2
    · rw [h1]

/-- Closed witness for `c8_cell_first_write_rollback`: a block mutating the
cell through `get_mut`, an applied transaction and a dropped transaction
still reverts to the at-open value `3`; and a set rollback slot survives a
further `get_mut`. -/
theorem c8_cell_first_write_rollback_witness :
    revertValue (cellReplay (3 : Nat) [CellOp.getMut (fun v => v + 1),
        CellOp.txn [fun v => v * 2] true, CellOp.txn [fun v => v + 5] false]) = 3 ∧
      (cellStep ((some 2, 9) : CellSt Nat) (CellOp.getMut (fun v => v + 1))).1 = some 2 :=
  ⟨(c8_cell_first_write_rollback 3 [CellOp.getMut (fun v => v + 1),
      CellOp.txn [fun v => v * 2] true, CellOp.txn [fun v => v + 5] false]).2.2.1,
   (c8_cell_first_write_rollback (3 : Nat) []).2.2.2 (some 2, 9)
     (CellOp.getMut (fun v => v + 1)) 2 rfl⟩

end MvCell

namespace MvSerde

theorem visitMapGo_ok_shape {D R B : Type} {pr : D → Except DeError R}
    {pb : D → Except DeError B} {entries : List (String × D)} :
    ∀ {rb? : Option R} {bl? : Option B} {v : R × B},
      visitMapGo pr pb entries rb? bl? = .ok v →
        (∀ e ∈ entries, e.1 = "rollback" ∨ e.1 = "blocks") ∧
          countField "rollback" entries = (if rb?.isSome then 0 else 1) ∧
          countField "blocks" entries = (if bl?.isSome then 0 else 1) := by
  induction entries with
  | nil =>
    intro rb? bl? v h
    rw [visitMapGo.eq_def] at h
    simp only at h
    cases rb? with
    | none => simp at h
    | some r =>
      cases bl? with
      | none => simp at h
      | some b =>
        refine ⟨by simp, ?_, ?_⟩ <;> simp [countField]
  | cons e rest ih =>
    intro rb? bl? v h
    obtain ⟨s, d⟩ := e
    rw [visitMapGo] at h
    by_cases h1 : s = "rollback"
    · rw [parseField, if_pos h1] at h
      simp only at h
      by_cases hrb : rb?.isSome
      · rw [if_pos hrb] at h
        simp at h
      · rw [if_neg hrb] at h
        cases hpd : pr d with
        | error e2 =>
          rw [hpd] at h
          simp at h
        | ok r2 =>
          rw [hpd] at h
          simp only at h
          obtain ⟨ih1, ih2, ih3⟩ := ih h
          have hrbnone : ¬ rb?.isSome = true := hrb
          refine ⟨?_, ?_, ?_⟩
          · intro e2 he2
            rcases List.mem_cons.mp he2 with hh | hh
            · left
              rw [hh]
              exact h1
            · exact ih1 e2 hh
          · rw [countField, if_pos h1, ih2]
            simp [hrbnone]
          · have hne : ¬ (s, d).1 = "blocks" := by simp [h1]
            rw [countField, if_neg hne, ih3]
            simp
    · by_cases h2 : s = "blocks"
      · rw [parseField, if_neg h1, if_pos h2] at h
        simp only at h
        by_cases hbl : bl?.isSome
        · rw [if_pos hbl] at h
          simp at h
        · rw [if_neg hbl] at h
          cases hpd : pb d with
          | error e2 =>
            rw [hpd] at h
            simp at h
          | ok b2 =>
            rw [hpd] at h
            simp only at h
            obtain ⟨ih1, ih2, ih3⟩ := ih h
            have hblnone : ¬ bl?.isSome = true := hbl
            refine ⟨?_, ?_, ?_⟩
            · intro e2 he2
              rcases List.mem_cons.mp he2 with hh | hh
              · right
                rw [hh]
                exact h2
              · exact ih1 e2 hh
            · have hne : ¬ (s, d).1 = "rollback" := by simp [h2]
              rw [countField, if_neg hne, ih2]
              simp
            · rw [countField, if_pos h2, ih3]
              simp [hblnone]
      · rw [parseField, if_neg h1, if_neg h2] at h
        simp at h

/-- C9: the `serde.rs` deserialization visitors for `Storage` and `Cell`
(whose field/shape logic is identical — `StorageSeededVisitor` and
`CellSeededVisitor` differ only in the payload parsers, abstracted here as
`pr`/`pb`) accept an ordered two-element sequence (rollback then blocks)
and a keyed object with exactly the fields `"rollback"` and `"blocks"` in
either order; and for EVERY entry list they return an error — the `Except`
result carries no partial value — whenever the required field `"rollback"`
or `"blocks"` is missing (zero occurrences among the keys, wherever the
other entries sit), whenever a keyed field occurs twice (two or more
occurrences anywhere in the list), and whenever any field name other than
the exact literals `"rollback"` and `"blocks"` appears anywhere in the
list. -/
theorem c9_deserialization_shape {D R B : Type} (pr : D → Except DeError R)
    (pb : D → Except DeError B) (x y : D) (r : R) (b : B)
    (hx : pr x = .ok r) (hy : pb y = .ok b) :
    visitSeq pr pb [x, y] = .ok (r, b) ∧
      visitMap pr pb [("rollback", x), ("blocks", y)] = .ok (r, b) ∧
      visitMap pr pb [("blocks", y), ("rollback", x)] = .ok (r, b) ∧
      (∀ entries : List (String × D), countField "rollback" entries = 0 →
        ∃ e, visitMap pr pb entries = .error e) ∧
      (∀ entries : List (String × D), countField "blocks" entries = 0 →
        ∃ e, visitMap pr pb entries = .error e) ∧
      (∀ entries : List (String × D), 2 ≤ countField "rollback" entries →
        ∃ e, visitMap pr pb entries = .error e) ∧
      (∀ entries : List (String × D), 2 ≤ countField "blocks" entries →
        ∃ e, visitMap pr pb entries = .error e) ∧
      ∀ (entries : List (String × D)) (s : String) (d : D), (s, d) ∈ entries →
        ¬ s = "rollback" → ¬ s = "blocks" →
        ∃ e, visitMap pr pb entries = .error e := by
  refine ⟨?_, ?_, ?_, ?_, ?_, ?_, ?_, ?_⟩
  · simp [visitSeq, hx, hy]
  · simp [visitMap, visitMapGo, parseField, hx, hy]
  · simp [visitMap, visitMapGo, parseField, hx, hy]
  · intro entries hcnt
    cases hV : visitMap pr pb entries with
    | error e => exact ⟨e, rfl⟩
    | ok v =>
      obtain ⟨_, h2, _⟩ := visitMapGo_ok_shape hV
      rw [hcnt] at h2
      simp at h2
  · intro entries hcnt
    cases hV : visitMap pr pb entries with
    | error e => exact ⟨e, rfl⟩
    | ok v =>
      obtain ⟨_, _, h3⟩ := visitMapGo_ok_shape hV
      rw [hcnt] at h3
      simp at h3
  · intro entries hcnt
    cases hV : visitMap pr pb entries with
    | error e => exact ⟨e, rfl⟩
    | ok v =>
      obtain ⟨_, h2, _⟩ := visitMapGo_ok_shape hV
      rw [h2] at hcnt
      simp at hcnt
  · intro entries hcnt
    cases hV : visitMap pr pb entries with
    | error e => exact ⟨e, rfl⟩
    | ok v =>
      obtain ⟨_, _, h3⟩ := visitMapGo_ok_shape hV
      rw [h3] at hcnt
      simp at hcnt
  · intro entries s d hmem hs1 hs2
    cases hV : visitMap pr pb entries with
    | error e => exact ⟨e, rfl⟩
    | ok v =>
      obtain ⟨h1, _, _⟩ := visitMapGo_ok_shape hV
      rcases h1 (s, d) hmem with hh | hh
      · exact absurd hh hs1
      · exact absurd hh hs2

/-- Closed witness for `c9_deserialization_shape`: concrete payload parsers
accept the object in both field orders, and the error conjuncts fire on a
map missing `"rollback"` while `"blocks"` is present, on a duplicate
`"rollback"` arriving after `"blocks"`, and on the unknown field `"foo"`
appearing after a valid entry. -/
theorem c9_deserialization_shape_witness :
    visitMap (fun n => Except.ok n) (fun n => Except.ok (n + 1))
        [("rollback", (1 : Nat)), ("blocks", 2)] = .ok (1, 3) ∧
      (∃ e, visitMap (fun n => Except.ok n) (fun n : Nat => Except.ok (n + 1))
        [("blocks", (2 : Nat))] = .error e) ∧
      (∃ e, visitMap (fun n => Except.ok n) (fun n : Nat => Except.ok (n + 1))
        [("rollback", (1 : Nat)), ("blocks", 2), ("rollback", 3)] = .error e) ∧
      ∃ e, visitMap (fun n => Except.ok n) (fun n : Nat => Except.ok (n + 1))
        [("rollback", (1 : Nat)), ("foo", 2)] = .error e :=
  ⟨(c9_deserialization_shape (fun n => Except.ok n) (fun n => Except.ok (n + 1))
      1 2 1 3 rfl rfl).2.1,
   (c9_deserialization_shape (fun n => Except.ok n) (fun n => Except.ok (n + 1))
      1 2 1 3 rfl rfl).2.2.2.1 [("blocks", 2)] (by decide),
   (c9_deserialization_shape (fun n => Except.ok n) (fun n => Except.ok (n + 1))
      1 2 1 3 rfl rfl).2.2.2.2.2.1
     [("rollback", 1), ("blocks", 2), ("rollback", 3)] (by decide),
   (c9_deserialization_shape (fun n => Except.ok n) (fun n => Except.ok (n + 1))
      1 2 1 3 rfl rfl).2.2.2.2.2.2.2 [("rollback", 1), ("foo", 2)] "foo" 2
     (by decide) (by decide) (by decide)⟩

end MvSerde
